import Mathlib

/-!
Verification of the article-examination link-graph engine.

This file gives a shallow embedding of the core of the repository
(`article.py`, `wcutil.py`, `articleexamination.py`): the `Article` record,
the dictionary of articles held by the `ArticleExaminer`, the markdown link
extraction (regex `\]\s?\([^\)]*\)` together with the code-fence toggle), the
bidirectional link bookkeeping (`add_link_between_articles`,
`remove_link_between_articles`), the incremental rescan (`check_articles`),
existence reconciliation (`set_directory_path`), classification
(`summarize_md_issues_in`) and the control-file (pickle) loading path.

Strings are modelled as `List Char` (Python `str`), the articles dictionary
as an insertion-ordered association list (Python `dict`), timestamps as `Nat`,
and the filesystem as an explicit listing of files with name, modification
time and content lines.  The pickle exception path is modelled with `Except`.
-/

namespace AEP

/-- Python strings are modelled as lists of characters. -/
abbrev Name := List Char

/-- Shorthand to write concrete names/lines from Lean string literals. -/
def nm (s : String) : Name := s.data

/-! ### `article.py` : the `Article` class -/

/-- The `Article` data container of `article.py`: file name, path is implied
by name plus the (fixed) directory, last-modified timestamp, existence flag
and the three link lists. -/
structure Article where
  name : Name
  last_modified : Nat
  has_existing_file : Bool
  md_links : List Name
  linked_from : List Name
  all_links : List Name
deriving DecidableEq, Repr

/-- `Article.__init__(file_name, parent_path, exists=False)`. -/
def Article.init (file_name : Name) (exists_ : Bool) : Article :=
  { name := file_name
    last_modified := 0
    has_existing_file := exists_
    md_links := []
    linked_from := []
    all_links := [] }

instance : Inhabited Article := ⟨Article.init [] false⟩

/-- `Article.is_not_linked_to`: `len(self.linked_from) == 0`. -/
def Article.is_not_linked_to (a : Article) : Bool :=
  a.linked_from.length == 0

/-- `Article.is_not_written`: `not self.has_existing_file`. -/
def Article.is_not_written (a : Article) : Bool :=
  !a.has_existing_file

/-- `Article.add_link`: append to `all_links` unless already present; the
second component is whether the link was freshly added. -/
def Article.add_link (a : Article) (link : Name) : Article × Bool :=
  if link ∈ a.all_links then (a, false)
  else ({ a with all_links := a.all_links ++ [link] }, true)

/-- `Article.remove_link`: remove from `all_links` if present (Python
`list.remove` deletes the first occurrence); the second component is whether
a link was actually removed. -/
def Article.remove_link (a : Article) (link : Name) : Article × Bool :=
  if link ∈ a.all_links then ({ a with all_links := a.all_links.erase link }, true)
  else (a, false)

/-- `Article.add_md_link_to`: append to `md_links` unless present; returns
whether the link was freshly added. -/
def Article.add_md_link_to (a : Article) (md_file_name : Name) : Article × Bool :=
  if md_file_name ∈ a.md_links then (a, false)
  else ({ a with md_links := a.md_links ++ [md_file_name] }, true)

/-- `Article.add_md_link_from`: append to `linked_from` unless present. -/
def Article.add_md_link_from (a : Article) (md_file_name : Name) : Article :=
  if md_file_name ∈ a.linked_from then a
  else { a with linked_from := a.linked_from ++ [md_file_name] }

/-- `Article.remove_md_link_to`: remove from `md_links` if present. -/
def Article.remove_md_link_to (a : Article) (md_file_name : Name) : Article :=
  if md_file_name ∈ a.md_links then { a with md_links := a.md_links.erase md_file_name }
  else a

/-- `Article.remove_md_link_from`: remove from `linked_from` if present, and
report whether the article should now be deleted (no longer linked to and its
file does not exist).  If the name was not in `linked_from` the article is
unchanged and `false` is reported even if it is unlinked and unwritten. -/
def Article.remove_md_link_from (a : Article) (md_file_name : Name) : Article × Bool :=
  if md_file_name ∈ a.linked_from then
    let a' := { a with linked_from := a.linked_from.erase md_file_name }
    (a', a'.is_not_linked_to && a'.is_not_written)
  else (a, false)

/-! ### The articles dictionary

Python's `dict` preserves insertion order; we model `self.articles` as an
association list.  Assignment to an existing key updates it in place,
assignment to a fresh key appends at the end, `del` removes the key. -/

abbrev Articles := List (Name × Article)

/-- `self.articles[n]`, returning `none` where Python would raise `KeyError`. -/
def lookupArticle (m : Articles) (n : Name) : Option Article :=
  (m.find? (fun p => p.1 == n)).map Prod.snd

/-- `self.articles[n] = a`: update in place if the key exists, else append. -/
def setArticle (m : Articles) (n : Name) (a : Article) : Articles :=
  if (m.find? (fun p => p.1 == n)).isSome then
    m.map (fun p => if p.1 == n then (n, a) else p)
  else
    m ++ [(n, a)]

/-- `del self.articles[n]`. -/
def delArticle (m : Articles) (n : Name) : Articles :=
  m.filter (fun p => p.1 != n)

/-! ### `wcutil.py` string predicates -/

/-- `wcutil.text_has_paths`: whether the text contains a path delimiter
(`'/'` or `'\\'`). -/
def text_has_paths (text : Name) : Bool :=
  text.contains '/' || text.contains '\\'

/-- `wcutil.tail_matches_token`: Python compares `text[-len(token):] == token`
(for a nonempty token; for an empty token Python returns `None`, which is
falsy and never used by this program). -/
def tail_matches_token (text token : Name) : Bool :=
  if 0 < token.length then
    text.drop (text.length - token.length) == token
  else false

/-- `check_text_is_md_file_name` from `articleexamination.py`. -/
def check_text_is_md_file_name (text : Name) : Bool :=
  tail_matches_token text (nm ".md")

/-- `check_text_is_local_md_file_name` from `articleexamination.py`. -/
def check_text_is_local_md_file_name (text : Name) : Bool :=
  if text_has_paths text then false
  else check_text_is_md_file_name text

/-! ### Link extraction

`ArticleExaminer.md_link_regular_expression` is `re.compile(r"\]\s?\([^\)]*\)")`
and links are collected with `findall`, i.e. leftmost non-overlapping matches.
A match is `']'`, at most one whitespace character, `'('`, a maximal run of
non-`')'` characters, then `')'`. -/

/-- ASCII characters matched by the regex class `\s`. -/
def isSpaceChar (c : Char) : Bool :=
  c == ' ' || c == '\t' || c == '\n' || c == '\r' || c == Char.ofNat 11 || c == Char.ofNat 12

/-- The backquote character and the code-fence token (three backquotes). -/
def backquote : Char := Char.ofNat 96

def fenceToken : Name := [backquote, backquote, backquote]

/-- Match `\([^\)]*\)` at the head of the input; on success return the matched
characters and the remaining input. -/
def matchBody (cs : List Char) : Option (List Char × List Char) :=
  match cs with
  | '(' :: rest =>
      let inner := rest.takeWhile (fun c => c ≠ ')')
      match rest.dropWhile (fun c => c ≠ ')') with
      | ')' :: after => some (('(' :: inner) ++ [')'], after)
      | _ => none
  | _ => none

/-- Match `\s?\([^\)]*\)` at the head of the input (the part of the regex
after the `']'`). -/
def matchAfterBracket (cs : List Char) : Option (List Char × List Char) :=
  match cs with
  | c :: rest =>
      if isSpaceChar c then
        match matchBody rest with
        | some (m, after) => some (c :: m, after)
        | none => matchBody cs
      else matchBody cs
  | [] => none

/-- `findall`, fuelled so that the definition is structurally recursive; the
fuel is always sufficient when set to the length of the input. -/
def findLinkMatchesAux : Nat → List Char → List (List Char)
  | 0, _ => []
  | _ + 1, [] => []
  | fuel + 1, c :: rest =>
      if c = ']' then
        match matchAfterBracket rest with
        | some (m, after) => (c :: m) :: findLinkMatchesAux fuel after
        | none => findLinkMatchesAux fuel rest
      else findLinkMatchesAux fuel rest

/-- `self.md_link_regular_expression.findall(line_of_text)`. -/
def findLinkMatches (cs : List Char) : List (List Char) :=
  findLinkMatchesAux cs.length cs

/-- Python `str.split(sep)` for a single-character separator. -/
def splitOnChar (sep : Char) : List Char → List (List Char)
  | [] => [[]]
  | c :: rest =>
      let r := splitOnChar sep rest
      if c = sep then [] :: r
      else
        match r with
        | h :: t => (c :: h) :: t
        | [] => [[c]]

/-- `match.split("(")[1][:-1]`: the recorded link for one regex match.  Every
match contains a `'('`, so the index-1 access never raises in Python; we use
a default for totality. -/
def linkFromMatch (m : List Char) : List Char :=
  ((splitOnChar '(' m).getD 1 []).dropLast

/-- Python `token in line` (substring test), used for the fence token. -/
def hasSubstring : List Char → List Char → Bool
  | [], pat => pat.isEmpty
  | c :: rest, pat => pat.isPrefixOf (c :: rest) || hasSubstring rest pat

/-! ### `articleexamination.py` : the `ArticleExaminer` state -/

/-- Entries of `self.log_archive`.  The Python log lines are timestamped
strings; we record the structured content of each message. -/
inductive LogEntry where
  | loadedControl (count : Nat)
  | existingAdded (name : Name)
  | existingRemoved (name : Name)
  | articleAdded (name : Name)
  | mdLinkAdded (source destination : Name)
  | mdLinkRemoved (source destination : Name)
  | articleRemoved (name : Name)
  | linkAdded (source : Name) (link : Name)
  | linkRemoved (source : Name) (link : Name)
deriving DecidableEq, Repr

/-- The mutable state of an `ArticleExaminer` (flags and debug plumbing are
orchestration-only and omitted; `directory_path` is the implicit scan root). -/
structure ArticleExaminer where
  articles : Articles
  floating_articles : List Name
  missing_articles : List Name
  log_archive : List LogEntry
  inside_of_code_block : Bool
  md_file_list : List Name
deriving DecidableEq, Repr

/-- A freshly constructed examiner before any directory scan. -/
def emptyExaminer : ArticleExaminer :=
  { articles := []
    floating_articles := []
    missing_articles := []
    log_archive := []
    inside_of_code_block := false
    md_file_list := [] }

/-- One file on disk: name, `st_mtime`, and content lines. -/
structure MdFile where
  name : Name
  mtime : Nat
  lines : List (List Char)
deriving DecidableEq, Repr

/-- The scanned directory: the file listing with contents and timestamps. -/
abbrev Directory := List MdFile

/-- The markdown files of the listing, in listing order
(`filter(check_text_is_md_file_name, full_file_list)`). -/
def mdFiles (dir : Directory) : Directory :=
  dir.filter (fun f => check_text_is_md_file_name f.name)

/-! ### `ArticleExaminer` operations -/

/-- The body of the match loop of `get_all_links_in_text`: record one regex
match on the file's article (via `Article.add_link`, which deduplicates) and
log it (the log happens for every match, even a duplicate one). -/
def record_link (file_name : Name) (s : ArticleExaminer) (m : List Char) : ArticleExaminer :=
  let link := linkFromMatch m
  match lookupArticle s.articles file_name with
  | some a =>
      { s with
        articles := setArticle s.articles file_name (a.add_link link).1
        log_archive := s.log_archive ++ [LogEntry.linkAdded file_name link] }
  | none => s

/-- The fence check opening `get_all_links_in_text`: toggle
`inside_of_code_block` when the line contains the fence token. -/
def toggle_code_block (st : ArticleExaminer) (line_of_text : List Char) : ArticleExaminer :=
  if hasSubstring line_of_text fenceToken then
    { st with inside_of_code_block := !st.inside_of_code_block }
  else st

/-- `ArticleExaminer.get_all_links_in_text`: toggle the code-block flag when
the line contains the fence token, and when not inside a code block record
every regex match. -/
def get_all_links_in_text (st : ArticleExaminer) (line_of_text : List Char)
    (file_name : Name) : ArticleExaminer :=
  let st := toggle_code_block st line_of_text
  if st.inside_of_code_block then st
  else (findLinkMatches line_of_text).foldl (record_link file_name) st

/-- `ArticleExaminer.add_link_between_articles`: create the destination as a
placeholder if absent, then record the link on both endpoints when it is
fresh on the source.  A missing source raises `KeyError` in Python; callers
always pass a present source, so that branch leaves the state unchanged. -/
def add_link_between_articles (st : ArticleExaminer)
    (source_name destination_name : Name) : ArticleExaminer :=
  let st :=
    if (lookupArticle st.articles destination_name).isNone then
      { st with
        articles := setArticle st.articles destination_name (Article.init destination_name false)
        log_archive := st.log_archive ++ [LogEntry.articleAdded destination_name] }
    else st
  match lookupArticle st.articles source_name with
  | none => st
  | some src =>
      let added := src.add_md_link_to destination_name
      if added.2 then
        let st := { st with articles := setArticle st.articles source_name added.1 }
        match lookupArticle st.articles destination_name with
        | none => st
        | some dst =>
            { st with
              articles := setArticle st.articles destination_name
                (dst.add_md_link_from source_name)
              log_archive := st.log_archive ++
                [LogEntry.mdLinkAdded source_name destination_name] }
      else st

/-- `ArticleExaminer.remove_link_between_articles`: drop the link from the
source (logged unconditionally), then drop it from the destination's inbound
list and delete the destination when it is no longer linked to and does not
exist.  The second component is the removed identity, `none` otherwise
(Python returns the name or `False`). -/
def remove_link_between_articles (st : ArticleExaminer)
    (source_name destination_name : Name) : ArticleExaminer × Option Name :=
  let st :=
    match lookupArticle st.articles source_name with
    | some src =>
        { st with articles :=
            setArticle st.articles source_name (src.remove_md_link_to destination_name) }
    | none => st
  let st := { st with log_archive := st.log_archive ++
      [LogEntry.mdLinkRemoved source_name destination_name] }
  match lookupArticle st.articles destination_name with
  | none => (st, none)
  | some dst =>
      let removed := dst.remove_md_link_from source_name
      if removed.2 then
        ({ st with
           articles := delArticle st.articles destination_name
           log_archive := st.log_archive ++ [LogEntry.articleRemoved destination_name] },
         some destination_name)
      else
        ({ st with articles := setArticle st.articles destination_name removed.1 }, none)

/-- The re-parse block of `check_articles` for one modified file: reset the
link lists, scan every line, classify local markdown links, update
`last_modified`, retract vanished tracked links, then log vanished untracked
links (whose `remove_link` call is a no-op since the link is already gone
from `all_links`). -/
def reparse_article (st : ArticleExaminer) (f : MdFile) (article : Article) :
    ArticleExaminer :=
  let old_all_links := article.all_links
  let old_md_links := article.md_links
  let article2 := { article with all_links := [], md_links := [] }
  let st := { st with articles := setArticle st.articles f.name article2 }
  let st := f.lines.foldl (fun s line => get_all_links_in_text s line f.name) st
  let newAll :=
    match lookupArticle st.articles f.name with
    | some a => a.all_links
    | none => []
  let st := newAll.foldl (fun s link =>
      if check_text_is_local_md_file_name link then
        add_link_between_articles s f.name link
      else s) st
  let st :=
    match lookupArticle st.articles f.name with
    | some a =>
        { st with articles :=
            setArticle st.articles f.name { a with last_modified := f.mtime } }
    | none => st
  let st := old_md_links.foldl (fun s link =>
      let cur_md :=
        match lookupArticle s.articles f.name with
        | some a => a.md_links
        | none => []
      if link ∈ cur_md then s
      else (remove_link_between_articles s f.name link).1) st
  let st := old_all_links.foldl (fun s link =>
      let cur_all :=
        match lookupArticle s.articles f.name with
        | some a => a.all_links
        | none => []
      if link ∈ cur_all then s
      else
        match lookupArticle s.articles f.name with
        | some a =>
            { s with
              articles := setArticle s.articles f.name (a.remove_link link).1
              log_archive := s.log_archive ++ [LogEntry.linkRemoved f.name link] }
        | none => s) st
  st

/-- The body of the `check_articles` loop for one markdown file: repair the
existence flag, and when the on-disk timestamp is strictly newer than the
stored one, run `reparse_article`. -/
def check_article_file (st : ArticleExaminer) (f : MdFile) : ArticleExaminer :=
  match lookupArticle st.articles f.name with
  | none => st
  | some article =>
      let st :=
        if article.is_not_written then
          { st with articles :=
              setArticle st.articles f.name { article with has_existing_file := true } }
        else st
      match lookupArticle st.articles f.name with
      | none => st
      | some article =>
          if article.last_modified < f.mtime then reparse_article st f article
          else st

/-- `ArticleExaminer.check_articles`: update the link lists of every markdown
file of the listing, in listing order. -/
def check_articles (st : ArticleExaminer) (dir : Directory) : ArticleExaminer :=
  (mdFiles dir).foldl check_article_file st

/-- One step of the existence-reconciliation loop of `set_directory_path`:
flip `has_existing_file` to match the current listing, logging transitions in
either direction. -/
def update_existence (md_names : List Name) (st : ArticleExaminer)
    (article_name : Name) : ArticleExaminer :=
  match lookupArticle st.articles article_name with
  | none => st
  | some article =>
      if article.name ∈ md_names then
        if !article.has_existing_file then
          { st with
            articles := setArticle st.articles article_name
              { article with has_existing_file := true }
            log_archive := st.log_archive ++ [LogEntry.existingAdded article.name] }
        else st
      else
        if article.has_existing_file then
          { st with
            articles := setArticle st.articles article_name
              { article with has_existing_file := false }
            log_archive := st.log_archive ++ [LogEntry.existingRemoved article.name] }
        else st

/-- `ArticleExaminer.set_directory_path` on a valid directory, after any
control-file incorporation: compute the markdown file list, reconcile the
existence flag of every tracked article against the listing, then create an
article (existing, empty link lists) for every listed markdown file not yet
tracked. -/
def set_directory_path_core (st : ArticleExaminer) (dir : Directory) : ArticleExaminer :=
  let md_names := (mdFiles dir).map (fun f => f.name)
  let st := { st with md_file_list := md_names }
  let st := (st.articles.map Prod.fst).foldl (update_existence md_names) st
  md_names.foldl (fun s md_file =>
      if (lookupArticle s.articles md_file).isNone then
        { s with articles := setArticle s.articles md_file (Article.init md_file true) }
      else s) st

/-- The floating list recomputed from scratch: identities whose article has an
empty `linked_from`, in dictionary order. -/
def floatingOf (m : Articles) : List Name :=
  (m.filter (fun p => p.2.is_not_linked_to)).map Prod.fst

/-- The missing list recomputed from scratch: identities whose article's file
does not exist, in dictionary order. -/
def missingOf (m : Articles) : List Name :=
  (m.filter (fun p => p.2.is_not_written)).map Prod.fst

/-- `ArticleExaminer.summarize_md_issues_in`: run `check_articles`, then
rebuild `floating_articles` and `missing_articles` from scratch over the full
dictionary (serialization is I/O and not part of the state). -/
def summarize_md_issues_in (st : ArticleExaminer) (dir : Directory) : ArticleExaminer :=
  let st := check_articles st dir
  { st with
    floating_articles := floatingOf st.articles
    missing_articles := missingOf st.articles }

/-- One full run over a directory carrying forward the previous run's state
(as the pickle round-trip restores it): a fresh examiner starts with
`inside_of_code_block = False`, incorporates the prior articles, floating,
missing and log, runs `set_directory_path` and then `summarize_md_issues_in`.
-/
def reconcile (st : ArticleExaminer) (dir : Directory) : ArticleExaminer :=
  let st := { st with inside_of_code_block := false }
  summarize_md_issues_in (set_directory_path_core st dir) dir

/-! ### Control-file (pickle) loading -/

/-- What `pickle.load` finds in an existing `aep-control.pickle`: either a
well-formed serialized examiner state or bytes it cannot deserialize. -/
inductive ControlFileData where
  | corrupt
  | valid (articles : Articles) (floating : List Name) (missing : List Name)
      (log : List LogEntry)
deriving DecidableEq, Repr

/-- The deserialization failure raised by `pickle.load`. -/
inductive PickleError where
  | corrupt
deriving DecidableEq, Repr

/-- `ArticleExaminer.deserialize_control_file`: `pickle.load` either returns
the stored examiner or raises; there is no `try`/`except` anywhere on this
path, so the error propagates. -/
def deserialize_control_file (data : ControlFileData) :
    Except PickleError ControlFileData :=
  match data with
  | .corrupt => .error .corrupt
  | d => .ok d

/-- `set_directory_path` including the control-file branch: when caching is
enabled and a control file is present in the listing, deserialize it and
copy its articles, floating/missing lists and log archive before scanning;
a deserialization failure aborts (propagates).  `control = none` models the
absence of `aep-control.pickle` from the listing. -/
def set_directory_path_io (st : ArticleExaminer) (nocache : Bool)
    (control : Option ControlFileData) (dir : Directory) :
    Except PickleError ArticleExaminer :=
  match nocache, control with
  | false, some data =>
      match deserialize_control_file data with
      | .error e => .error e
      | .ok .corrupt => .error .corrupt
      | .ok (.valid arts flo mis log) =>
          .ok (set_directory_path_core
            { st with
              articles := arts
              floating_articles := flo
              missing_articles := mis
              log_archive := log ++ [LogEntry.loadedControl arts.length] } dir)
  | _, _ => .ok (set_directory_path_core st dir)

/-- One directory's scan as driven by `aep.py`: construct the examiner (which
runs `set_directory_path`, possibly loading the control file) and then run
`summarize_md_issues_in`.  An uncaught pickle error aborts the directory's
run. -/
def run_scan (st : ArticleExaminer) (nocache : Bool)
    (control : Option ControlFileData) (dir : Directory) :
    Except PickleError ArticleExaminer :=
  match set_directory_path_io st nocache control dir with
  | .error e => .error e
  | .ok st' => .ok (summarize_md_issues_in st' dir)

/-! ## Lemmas about the articles dictionary -/

theorem find?_cons_true {α : Type} (pred : α → Bool) (x : α) (l : List α)
    (h : pred x = true) : (x :: l).find? pred = some x :=
  List.find?_cons_of_pos l h

theorem find?_cons_false {α : Type} (pred : α → Bool) (x : α) (l : List α)
    (h : pred x = false) : (x :: l).find? pred = l.find? pred :=
  List.find?_cons_of_neg l (by simp [h])

theorem find?_map_update (m : Articles) (n : Name) (a : Article) :
    (m.map (fun p => if p.1 == n then (n, a) else p)).find? (fun p => p.1 == n) =
      if (m.find? (fun p => p.1 == n)).isSome then some (n, a) else none := by
  induction m with
  | nil => rfl
  | cons p t ih =>
      rw [List.map_cons]
      by_cases hp : (p.1 == n) = true
      · rw [if_pos hp, find?_cons_true (fun q : Name × Article => q.1 == n) (n, a) _ (by simp),
          find?_cons_true (fun q : Name × Article => q.1 == n) p t hp]
        simp
      · have hp' : (p.1 == n) = false := by simpa using hp
        rw [if_neg hp, find?_cons_false (fun q : Name × Article => q.1 == n) p _ hp',
          find?_cons_false (fun q : Name × Article => q.1 == n) p t hp', ih]

theorem find?_map_update_ne (m : Articles) (n k : Name) (a : Article) (h : k ≠ n) :
    (m.map (fun p => if p.1 == n then (n, a) else p)).find? (fun p => p.1 == k) =
      m.find? (fun p => p.1 == k) := by
  induction m with
  | nil => rfl
  | cons p t ih =>
      rw [List.map_cons]
      by_cases hp : (p.1 == n) = true
      · have hpn : p.1 = n := by simpa using hp
        have h2 : (p.1 == k) = false := by
          simp only [beq_eq_false_iff_ne, ne_eq, hpn]
          exact fun hc => h hc.symm
        have h3 : (((n, a) : Name × Article).1 == k) = false := by
          simp only [beq_eq_false_iff_ne, ne_eq]
          exact fun hc => h hc.symm
        rw [if_pos hp, find?_cons_false (fun q : Name × Article => q.1 == k) (n, a) _ h3,
          find?_cons_false (fun q : Name × Article => q.1 == k) p t h2, ih]
      · rw [if_neg hp]
        cases hpk : (p.1 == k)
        · rw [find?_cons_false (fun q : Name × Article => q.1 == k) p _ hpk,
            find?_cons_false (fun q : Name × Article => q.1 == k) p t hpk, ih]
        · rw [find?_cons_true (fun q : Name × Article => q.1 == k) p _ hpk,
            find?_cons_true (fun q : Name × Article => q.1 == k) p t hpk]

theorem lookup_set_self (m : Articles) (n : Name) (a : Article) :
    lookupArticle (setArticle m n a) n = some a := by
  unfold lookupArticle setArticle
  by_cases h : (m.find? (fun p => p.1 == n)).isSome
  · rw [if_pos h, find?_map_update, if_pos h]; rfl
  · rw [if_neg h]
    have hnone : m.find? (fun p => p.1 == n) = none := Option.not_isSome_iff_eq_none.mp h
    rw [List.find?_append, hnone,
      find?_cons_true (fun q : Name × Article => q.1 == n) (n, a) [] (by simp)]
    rfl

theorem lookup_set_ne (m : Articles) (n k : Name) (a : Article) (h : k ≠ n) :
    lookupArticle (setArticle m n a) k = lookupArticle m k := by
  unfold lookupArticle setArticle
  by_cases hs : (m.find? (fun p => p.1 == n)).isSome
  · rw [if_pos hs, find?_map_update_ne m n k a h]
  · rw [if_neg hs, List.find?_append]
    have h3 : (((n, a) : Name × Article).1 == k) = false := by
      simp only [beq_eq_false_iff_ne, ne_eq]
      exact fun hc => h hc.symm
    rw [find?_cons_false (fun q : Name × Article => q.1 == k) (n, a) [] h3]
    cases hm : m.find? (fun p => p.1 == k) <;> simp [hm]

theorem lookup_del_self (m : Articles) (n : Name) :
    lookupArticle (delArticle m n) n = none := by
  unfold lookupArticle delArticle
  induction m with
  | nil => rfl
  | cons p t ih =>
      rw [List.filter_cons]
      by_cases hp : (p.1 = n)
      · have h1 : (p.1 != n) = false := by simp [hp]
        rw [h1, if_neg Bool.false_ne_true]
        exact ih
      · have h1 : (p.1 != n) = true := by simp [hp]
        have h2 : (p.1 == n) = false := by simpa using hp
        rw [h1, if_pos rfl, find?_cons_false (fun q : Name × Article => q.1 == n) p _ h2]
        exact ih

theorem lookup_del_ne (m : Articles) (n k : Name) (h : k ≠ n) :
    lookupArticle (delArticle m n) k = lookupArticle m k := by
  unfold lookupArticle delArticle
  induction m with
  | nil => rfl
  | cons p t ih =>
      rw [List.filter_cons]
      by_cases hp : (p.1 = n)
      · have h1 : (p.1 != n) = false := by simp [hp]
        have h2 : (p.1 == k) = false := by
          simp only [beq_eq_false_iff_ne, ne_eq, hp]
          exact fun hc => h hc.symm
        rw [h1, if_neg Bool.false_ne_true, find?_cons_false (fun q : Name × Article => q.1 == k) p t h2]
        exact ih
      · have h1 : (p.1 != n) = true := by simp [hp]
        rw [h1, if_pos rfl]
        cases hpk : (p.1 == k)
        · rw [find?_cons_false (fun q : Name × Article => q.1 == k) p _ hpk,
            find?_cons_false (fun q : Name × Article => q.1 == k) p t hpk]
          exact ih
        · rw [find?_cons_true (fun q : Name × Article => q.1 == k) p _ hpk,
            find?_cons_true (fun q : Name × Article => q.1 == k) p t hpk]

theorem mem_of_lookup {m : Articles} {n : Name} {a : Article}
    (h : lookupArticle m n = some a) : (n, a) ∈ m := by
  unfold lookupArticle at h
  cases hf : m.find? (fun p => p.1 == n) with
  | none => rw [hf] at h; exact absurd h (by simp)
  | some p =>
      have hmem := List.mem_of_find?_eq_some hf
      have hp1 : p.1 = n := by simpa using List.find?_some hf
      have hp2 : p.2 = a := by rw [hf] at h; simpa using h
      have : p = (n, a) := by
        cases p; simp only at hp1 hp2; rw [hp1, hp2]
      rwa [this] at hmem

theorem lookup_of_mem_nodup {m : Articles} {n : Name} {a : Article}
    (hnd : (m.map Prod.fst).Nodup) (h : (n, a) ∈ m) :
    lookupArticle m n = some a := by
  induction m with
  | nil => simp at h
  | cons p t ih =>
      simp only [List.map_cons, List.nodup_cons] at hnd
      rcases List.mem_cons.mp h with h1 | h1
      · subst h1
        simp [lookupArticle, List.find?]
      · have hne : p.1 ≠ n := by
          intro hc
          exact hnd.1 (hc ▸ (List.mem_map.mpr ⟨(n, a), h1, rfl⟩))
        have h1' : (p.1 == n) = false := by simp [hne]
        simpa [lookupArticle, List.find?, h1'] using ih hnd.2 h1

theorem lookup_isSome_of_mem {m : Articles} {p : Name × Article} (h : p ∈ m) :
    (lookupArticle m p.1).isSome := by
  unfold lookupArticle
  cases hf : m.find? (fun q => q.1 == p.1) with
  | none =>
      have := List.find?_eq_none.mp hf p h
      simp at this
  | some q => simp

/-! ## Generic fold lemmas -/

theorem foldl_induction {α β : Type} (f : β → α → β) (P : β → Prop) :
    ∀ (l : List α) (b : β), P b → (∀ b' x, x ∈ l → P b' → P (f b' x)) →
      P (l.foldl f b) := by
  intro l
  induction l with
  | nil => intro b hb _; exact hb
  | cons x t ih =>
      intro b hb hstep
      exact ih (f b x) (hstep b x (List.mem_cons_self x t) hb)
        (fun b' y hy => hstep b' y (List.mem_cons_of_mem x hy))

theorem foldl_fixed {α β : Type} (f : β → α → β) :
    ∀ (l : List α) (b : β), (∀ x ∈ l, f b x = b) → l.foldl f b = b := by
  intro l
  induction l with
  | nil => intro b _; rfl
  | cons x t ih =>
      intro b h
      have hx := h x (List.mem_cons_self x t)
      simp only [List.foldl_cons, hx]
      exact ih b (fun y hy => h y (List.mem_cons_of_mem x hy))

/-! ## Lemmas about the string predicates -/

theorem check_md_iff_suffix (t : Name) :
    check_text_is_md_file_name t = true ↔ nm ".md" <:+ t := by
  unfold check_text_is_md_file_name tail_matches_token
  rw [if_pos (by decide : 0 < (nm ".md").length)]
  constructor
  · intro h
    rw [List.suffix_iff_eq_drop]
    exact (eq_of_beq h).symm
  · intro h
    rw [List.suffix_iff_eq_drop] at h
    exact beq_iff_eq.mpr h.symm

theorem text_has_paths_iff (t : Name) :
    text_has_paths t = true ↔ ('/' ∈ t ∨ '\\' ∈ t) := by
  unfold text_has_paths
  simp

/-! ## Lemmas about link extraction -/

theorem record_link_inside (f : Name) (s : ArticleExaminer) (m : List Char) :
    (record_link f s m).inside_of_code_block = s.inside_of_code_block := by
  unfold record_link
  cases h : lookupArticle s.articles f <;> simp [h]

theorem record_link_lookup_self (f : Name) (s : ArticleExaminer) (m : List Char)
    (a : Article) (h : lookupArticle s.articles f = some a) :
    lookupArticle (record_link f s m).articles f =
      some (a.add_link (linkFromMatch m)).1 := by
  unfold record_link
  rw [h]
  exact lookup_set_self s.articles f (a.add_link (linkFromMatch m)).1

theorem add_link_self_mem (a : Article) (l : Name) :
    l ∈ ((a.add_link l).1).all_links := by
  unfold Article.add_link
  by_cases h : l ∈ a.all_links <;> simp [h]

theorem add_link_mono (a : Article) (l x : Name) (h : x ∈ a.all_links) :
    x ∈ ((a.add_link l).1).all_links := by
  unfold Article.add_link
  by_cases h' : l ∈ a.all_links <;> simp [h', h]

theorem fold_record_link_pres (f x : Name) (l : List (List Char)) (s : ArticleExaminer)
    (h : ∃ a, lookupArticle s.articles f = some a ∧ x ∈ a.all_links) :
    ∃ a', lookupArticle (l.foldl (record_link f) s).articles f = some a' ∧
      x ∈ a'.all_links := by
  refine foldl_induction (record_link f)
    (fun s' => ∃ a', lookupArticle s'.articles f = some a' ∧ x ∈ a'.all_links) l s h ?_
  rintro s' m _ ⟨a', ha', hx⟩
  exact ⟨(a'.add_link (linkFromMatch m)).1, record_link_lookup_self f s' m a' ha',
    add_link_mono a' _ x hx⟩

theorem fold_record_link_all (f : Name) (l : List (List Char)) :
    ∀ (s : ArticleExaminer), (lookupArticle s.articles f).isSome →
      ∀ m ∈ l, ∃ a', lookupArticle (l.foldl (record_link f) s).articles f = some a' ∧
        linkFromMatch m ∈ a'.all_links := by
  induction l with
  | nil => intro s _ m hm; cases hm
  | cons m0 rest ih =>
      intro s hs m hm
      obtain ⟨a, ha⟩ := Option.isSome_iff_exists.mp hs
      have h1 : lookupArticle (record_link f s m0).articles f =
          some (a.add_link (linkFromMatch m0)).1 := record_link_lookup_self f s m0 a ha
      rw [List.foldl_cons]
      rcases List.mem_cons.mp hm with rfl | hm'
      · exact fold_record_link_pres f (linkFromMatch m) rest _
          ⟨_, h1, add_link_self_mem a _⟩
      · exact ih (record_link f s m0) (by rw [h1]; rfl) m hm'

theorem findLinkMatchesAux_nil (n : Nat) : findLinkMatchesAux n [] = [] := by
  cases n <;> rfl

theorem isSpaceChar_ne {c : Char} (h : isSpaceChar c = true) :
    c ≠ '(' ∧ c ≠ ')' ∧ c ≠ ']' := by
  unfold isSpaceChar at h
  simp only [Bool.or_eq_true, beq_iff_eq] at h
  rcases h with ((((h | h) | h) | h) | h) | h <;> subst h <;> refine ⟨by decide, by decide, by decide⟩

theorem splitOnChar_not_mem {sep : Char} : ∀ {xs : List Char}, sep ∉ xs →
    splitOnChar sep xs = [xs] := by
  intro xs
  induction xs with
  | nil => intro _; rfl
  | cons c rest ih =>
      intro h
      have hc : ¬(c = sep) := fun e => h (e ▸ List.mem_cons_self c rest)
      have hr : sep ∉ rest := fun hm => h (List.mem_cons_of_mem c hm)
      simp only [splitOnChar, if_neg hc, ih hr]

theorem splitOnChar_append {sep : Char} : ∀ {xs : List Char}, sep ∉ xs → ∀ (ys : List Char),
    splitOnChar sep (xs ++ sep :: ys) = xs :: splitOnChar sep ys := by
  intro xs
  induction xs with
  | nil =>
      intro _ ys
      simp [splitOnChar]
  | cons c rest ih =>
      intro h ys
      have hc : ¬(c = sep) := fun e => h (e ▸ List.mem_cons_self c rest)
      have hr : sep ∉ rest := fun hm => h (List.mem_cons_of_mem c hm)
      have hi := ih hr ys
      simp only [List.cons_append, splitOnChar, if_neg hc, List.append_eq] at hi ⊢
      rw [hi]

theorem takeWhile_not_rparen : ∀ {t : List Char}, ')' ∉ t →
    (t ++ [')']).takeWhile (fun c => c ≠ ')') = t ∧
    (t ++ [')']).dropWhile (fun c => c ≠ ')') = [')'] := by
  intro t
  induction t with
  | nil => intro _; exact ⟨rfl, rfl⟩
  | cons c rest ih =>
      intro h
      have hc : c ≠ ')' := fun e => h (e ▸ List.mem_cons_self c rest)
      have hr : ')' ∉ rest := fun hm => h (List.mem_cons_of_mem c hm)
      have hc' : (decide (c ≠ ')')) = true := by simp [hc]
      constructor
      · rw [List.cons_append, List.takeWhile_cons, hc', if_pos rfl, (ih hr).1]
      · rw [List.cons_append, List.dropWhile_cons, hc', if_pos rfl, (ih hr).2]

theorem matchBody_closed {t : List Char} (h : ')' ∉ t) :
    matchBody ('(' :: (t ++ [')'])) = some (('(' :: t) ++ [')'], []) := by
  simp only [matchBody]
  rw [(takeWhile_not_rparen h).1, (takeWhile_not_rparen h).2]
  rfl

theorem matchAfterBracket_closed {ws t : List Char}
    (hws : ws = [] ∨ ∃ c, ws = [c] ∧ isSpaceChar c = true) (ht : ')' ∉ t) :
    matchAfterBracket (ws ++ '(' :: (t ++ [')'])) =
      some (ws ++ '(' :: (t ++ [')']), []) := by
  rcases hws with rfl | ⟨c, rfl, hc⟩
  · rw [List.nil_append]
    unfold matchAfterBracket
    simp [(by decide : isSpaceChar '(' = false), matchBody_closed ht]
  · rw [List.cons_append, List.nil_append]
    unfold matchAfterBracket
    simp [hc, matchBody_closed ht]

theorem findLinkMatches_single {ws t : List Char}
    (hws : ws = [] ∨ ∃ c, ws = [c] ∧ isSpaceChar c = true) (ht : ')' ∉ t) :
    findLinkMatches (']' :: (ws ++ '(' :: (t ++ [')']))) =
      [']' :: (ws ++ '(' :: (t ++ [')']))] := by
  unfold findLinkMatches
  rw [List.length_cons]
  have hm := matchAfterBracket_closed hws ht
  simp only [findLinkMatchesAux, if_pos rfl, hm, findLinkMatchesAux_nil]
  rw [if_pos trivial]

theorem exists_first_occ {α : Type} [DecidableEq α] (c : α) : ∀ {t : List α}, c ∈ t →
    ∃ p q, t = p ++ c :: q ∧ c ∉ p := by
  intro t
  induction t with
  | nil => intro h; cases h
  | cons x rest ih =>
      intro h
      by_cases hx : x = c
      · exact ⟨[], rest, by rw [hx]; rfl, by simp⟩
      · have : c ∈ rest := by
          rcases List.mem_cons.mp h with h1 | h1
          · exact absurd h1.symm hx
          · exact h1
        obtain ⟨p, q, hpq, hp⟩ := ih this
        exact ⟨x :: p, q, by rw [List.cons_append, hpq], by
          intro hm
          rcases List.mem_cons.mp hm with h1 | h1
          · exact hx h1.symm
          · exact hp h1⟩

theorem linkFromMatch_no_paren {ws t : List Char} (hws : '(' ∉ ws) (ht : '(' ∉ t) :
    linkFromMatch (']' :: (ws ++ '(' :: (t ++ [')']))) = t := by
  unfold linkFromMatch
  have hb : '(' ∉ (']' :: ws) := by
    intro hm
    rcases List.mem_cons.mp hm with h1 | h1
    · exact absurd h1.symm (by decide)
    · exact hws h1
  have h1 : (']' :: (ws ++ '(' :: (t ++ [')']))) =
      ((']' :: ws) ++ '(' :: (t ++ [')'])) := by simp
  rw [h1, splitOnChar_append hb]
  have ht2 : '(' ∉ (t ++ [')']) := by
    intro hm
    rcases List.mem_append.mp hm with h2 | h2
    · exact ht h2
    · simp at h2
  rw [splitOnChar_not_mem ht2]
  simp

theorem linkFromMatch_with_paren {ws t : List Char} (hws : '(' ∉ ws) (hp : '(' ∈ t) :
    (linkFromMatch (']' :: (ws ++ '(' :: (t ++ [')'])))).length < t.length := by
  unfold linkFromMatch
  have hb : '(' ∉ (']' :: ws) := by
    intro hm
    rcases List.mem_cons.mp hm with h1 | h1
    · exact absurd h1.symm (by decide)
    · exact hws h1
  have h1 : (']' :: (ws ++ '(' :: (t ++ [')']))) =
      ((']' :: ws) ++ '(' :: (t ++ [')'])) := by simp
  obtain ⟨p, q, hpq, hpf⟩ := exists_first_occ '(' hp
  have h2 : t ++ [')'] = p ++ '(' :: (q ++ [')']) := by rw [hpq]; simp
  rw [h1, h2, splitOnChar_append hb, splitOnChar_append hpf]
  simp only [List.getD_cons_succ, List.getD_cons_zero]
  calc p.dropLast.length ≤ p.length := by
        rw [List.length_dropLast]; omega
    _ < t.length := by rw [hpq]; simp

theorem toggle_articles (st : ArticleExaminer) (line : List Char) :
    (toggle_code_block st line).articles = st.articles := by
  unfold toggle_code_block
  split <;> rfl

/-! ## Claim C7 -/

/-- **C7.** A link target is classified as tracked (`check_text_is_local_md_file_name`)
iff it contains no path separator (`'/'` or `'\\'`) and its final characters are
exactly `".md"` (case-sensitively); and every extracted link target, tracked or
not, is recorded in the article's `all_links` set. -/
theorem claim7_tracked_classification :
    (∀ t : Name, check_text_is_local_md_file_name t = true ↔
      ('/' ∉ t ∧ '\\' ∉ t ∧ nm ".md" <:+ t)) ∧
    (∀ (st : ArticleExaminer) (line : List Char) (f : Name) (a : Article),
      lookupArticle st.articles f = some a →
      (get_all_links_in_text st line f).inside_of_code_block = false →
      ∀ m ∈ findLinkMatches line, ∃ a',
        lookupArticle (get_all_links_in_text st line f).articles f = some a' ∧
        linkFromMatch m ∈ a'.all_links) := by
  constructor
  · intro t
    unfold check_text_is_local_md_file_name
    by_cases hp : text_has_paths t = true
    · rw [if_pos hp]
      have hmem := (text_has_paths_iff t).mp hp
      constructor
      · intro h; cases h
      · rintro ⟨h1, h2, _⟩
        rcases hmem with h | h
        · exact absurd h h1
        · exact absurd h h2
    · rw [if_neg hp]
      have hnp : ¬('/' ∈ t ∨ '\\' ∈ t) := fun h => hp ((text_has_paths_iff t).mpr h)
      rw [check_md_iff_suffix]
      constructor
      · intro h
        exact ⟨fun h1 => hnp (Or.inl h1), fun h2 => hnp (Or.inr h2), h⟩
      · rintro ⟨_, _, h⟩
        exact h
  · intro st line f a ha hflag
    unfold get_all_links_in_text at hflag ⊢
    by_cases hin : (toggle_code_block st line).inside_of_code_block = true
    · rw [if_pos hin] at hflag
      rw [hflag] at hin
      cases hin
    · rw [if_neg hin] at hflag ⊢
      refine fold_record_link_all f (findLinkMatches line) _ ?_
      rw [toggle_articles, ha]
      rfl

/-- Witness for C7: on the concrete line `click [here](x.md)` processed for a
present article, the (tracked) target `x.md` is recorded in `all_links`. -/
theorem claim7_witness :
    let st : ArticleExaminer :=
      { emptyExaminer with articles := [(nm "a.md", Article.init (nm "a.md") true)] }
    let line := nm "click [here](x.md)"
    (lookupArticle st.articles (nm "a.md") = some (Article.init (nm "a.md") true)) ∧
    ((get_all_links_in_text st line (nm "a.md")).inside_of_code_block = false) ∧
    (∃ a', lookupArticle (get_all_links_in_text st line (nm "a.md")).articles
        (nm "a.md") = some a' ∧ nm "x.md" ∈ a'.all_links) := by
  refine ⟨by decide, by decide, ?_⟩
  have h := claim7_tracked_classification.2
    { emptyExaminer with articles := [(nm "a.md", Article.init (nm "a.md") true)] }
    (nm "click [here](x.md)") (nm "a.md") (Article.init (nm "a.md") true)
    (by decide) (by decide)
  have h2 := h (nm "](x.md)") (by decide)
  have h3 : linkFromMatch (nm "](x.md)") = nm "x.md" := by decide
  rwa [h3] at h2

/-! ## Claim C10 -/

/-- **C10.** For a regex match of the inline-link form `](target)` (with an
optional single whitespace after the bracket), the recorded link is computed
by `match.split("(")[1][:-1]`; it equals the actual target exactly when the
target contains no `'('`, and differs from every target containing `'('`. -/
theorem claim10_truncated_target (ws t : List Char)
    (hws : ws = [] ∨ ∃ c, ws = [c] ∧ isSpaceChar c = true) (ht : ')' ∉ t) :
    findLinkMatches (']' :: (ws ++ '(' :: (t ++ [')']))) =
      [']' :: (ws ++ '(' :: (t ++ [')']))] ∧
    (linkFromMatch (']' :: (ws ++ '(' :: (t ++ [')']))) = t ↔ '(' ∉ t) ∧
    ('(' ∈ t → linkFromMatch (']' :: (ws ++ '(' :: (t ++ [')']))) ≠ t) := by
  have hwsp : '(' ∉ ws := by
    rcases hws with rfl | ⟨c, rfl, hc⟩
    · simp
    · intro hm
      rcases List.mem_cons.mp hm with h1 | h1
      · exact (isSpaceChar_ne hc).1 h1.symm
      · cases h1
  refine ⟨findLinkMatches_single hws ht, ⟨?_, ?_⟩, ?_⟩
  · intro h
    by_contra hp
    have hlt := linkFromMatch_with_paren hwsp hp
    rw [h] at hlt
    exact absurd hlt (lt_irrefl _)
  · intro hp
    exact linkFromMatch_no_paren hwsp hp
  · intro hp heq
    have hlt := linkFromMatch_with_paren hwsp hp
    rw [heq] at hlt
    exact absurd hlt (lt_irrefl _)

/-- Witness for C10: for the target `a(b` the recorded link differs from the
target (the code records the empty string instead). -/
theorem claim10_witness :
    (')' ∉ nm "a(b") ∧
    linkFromMatch (']' :: (([] : List Char) ++ '(' :: (nm "a(b" ++ [')']))) ≠ nm "a(b" := by
  refine ⟨by decide, ?_⟩
  exact (claim10_truncated_target [] (nm "a(b") (Or.inl rfl) (by decide)).2.2 (by decide)

/-! ## Claim C3 -/

/-- The example directory of the specification: `a.md` links to `b.md`,
`c.md` links to `a.md`, and `b.md` does not exist. -/
def exampleDirC3 : Directory :=
  [⟨nm "a.md", 1, [nm "see [b](b.md)"]⟩, ⟨nm "c.md", 1, [nm "see [a](a.md)"]⟩]

/-- **C3.** After `summarize_md_issues_in`, `floating_articles` is exactly the
identities with empty inbound links and `missing_articles` exactly those whose
file does not exist, both recomputed from scratch over the full mapping; on
the spec's example directory the result is `floating = [c.md]`,
`missing = [b.md]` with `b.md` linked from `a.md`. -/
theorem claim3_classification :
    (∀ (st : ArticleExaminer) (dir : Directory),
      (summarize_md_issues_in st dir).floating_articles =
        floatingOf (check_articles st dir).articles ∧
      (summarize_md_issues_in st dir).missing_articles =
        missingOf (check_articles st dir).articles) ∧
    (reconcile emptyExaminer exampleDirC3).floating_articles = [nm "c.md"] ∧
    (reconcile emptyExaminer exampleDirC3).missing_articles = [nm "b.md"] ∧
    (lookupArticle (reconcile emptyExaminer exampleDirC3).articles (nm "b.md")).map
      Article.linked_from = some [nm "a.md"] := by
  refine ⟨fun st dir => ⟨rfl, rfl⟩, by decide, by decide, by decide⟩

/-! ## Claim C4 -/

/-- A directory whose first markdown file contains a single (unclosed) fence
line, and whose second file holds a link inside a correctly fenced block. -/
def fenceDirLeak : Directory :=
  [⟨nm "f1.md", 1, [fenceToken]⟩,
   ⟨nm "f2.md", 1, [fenceToken, nm "[a](b.md)", fenceToken]⟩]

/-- The second file of `fenceDirLeak` scanned on its own. -/
def fenceDirAlone : Directory :=
  [⟨nm "f2.md", 1, [fenceToken, nm "[a](b.md)", fenceToken]⟩]

/-- The first file of `fenceDirLeak` scanned on its own. -/
def fenceDirFirst : Directory :=
  [⟨nm "f1.md", 1, [fenceToken]⟩]

/-- **C4** (evidence of the code bug).  The fence flag is only initialised at
examiner construction and never reset per document, so after scanning `f1.md`
(one fence line) the flag is `true`; scanning `f2.md` in the same pass then
extracts `b.md` even though that link sits inside a correctly fenced block of
`f2.md`, whereas scanning `f2.md` alone extracts nothing. -/
theorem claim4_code_fence_leak :
    (reconcile emptyExaminer fenceDirFirst).inside_of_code_block = true ∧
    (lookupArticle (reconcile emptyExaminer fenceDirLeak).articles (nm "f2.md")).map
      Article.all_links = some [nm "b.md"] ∧
    (lookupArticle (reconcile emptyExaminer fenceDirAlone).articles (nm "f2.md")).map
      Article.all_links = some [] := by
  refine ⟨by decide, by decide, by decide⟩

/-! ## Claim C1: invariants and article-operation lemmas -/

/-- The claim's invariant, exactly as stated: for all identities present in
the mapping, `B ∈ A.md_links ↔ A ∈ B.linked_from`. -/
def SymmIff (m : Articles) : Prop :=
  ∀ A B a b, lookupArticle m A = some a → lookupArticle m B = some b →
    (B ∈ a.md_links ↔ A ∈ b.linked_from)

/-- The forward half of the symmetry invariant: every stored tracked link is
reflected in the target's inbound list. -/
def SymmFwd (m : Articles) : Prop :=
  ∀ A B a b, lookupArticle m A = some a → lookupArticle m B = some b →
    B ∈ a.md_links → A ∈ b.linked_from

/-- Every tracked outbound link of a present article targets a present
article. -/
def LinksClosed (m : Articles) : Prop :=
  ∀ A a, lookupArticle m A = some a → ∀ B ∈ a.md_links, (lookupArticle m B).isSome = true

/-- Tracked and inbound link lists are duplicate-free. -/
def LinksNodup (m : Articles) : Prop :=
  ∀ A a, lookupArticle m A = some a → a.md_links.Nodup ∧ a.linked_from.Nodup

/-- Well-formedness of the link graph: the forward symmetry together with
closedness of tracked links and duplicate-freeness of the link lists. -/
def WellFormedGraph (m : Articles) : Prop :=
  SymmFwd m ∧ LinksClosed m ∧ LinksNodup m

theorem symmIff_of_entries {m : Articles}
    (h : ∀ p ∈ m, ∀ q ∈ m, (q.1 ∈ p.2.md_links ↔ p.1 ∈ q.2.linked_from)) :
    SymmIff m :=
  fun A B a b hA hB => h (A, a) (mem_of_lookup hA) (B, b) (mem_of_lookup hB)

theorem wellFormed_of_entries {m : Articles}
    (h1 : ∀ p ∈ m, ∀ q ∈ m, q.1 ∈ p.2.md_links → p.1 ∈ q.2.linked_from)
    (h2 : ∀ p ∈ m, ∀ B ∈ p.2.md_links, (lookupArticle m B).isSome = true)
    (h3 : ∀ p ∈ m, p.2.md_links.Nodup ∧ p.2.linked_from.Nodup) :
    WellFormedGraph m :=
  ⟨fun A B a b hA hB => h1 (A, a) (mem_of_lookup hA) (B, b) (mem_of_lookup hB),
   fun A a hA => h2 (A, a) (mem_of_lookup hA),
   fun A a hA => h3 (A, a) (mem_of_lookup hA)⟩

theorem remove_md_link_to_name (a : Article) (d : Name) :
    (a.remove_md_link_to d).name = a.name := by
  unfold Article.remove_md_link_to; split <;> rfl

theorem remove_md_link_to_lf (a : Article) (d : Name) :
    (a.remove_md_link_to d).linked_from = a.linked_from := by
  unfold Article.remove_md_link_to; split <;> rfl

theorem remove_md_link_to_exists (a : Article) (d : Name) :
    (a.remove_md_link_to d).has_existing_file = a.has_existing_file := by
  unfold Article.remove_md_link_to; split <;> rfl

theorem remove_md_link_to_not_mem (a : Article) (d : Name) (h : a.md_links.Nodup) :
    d ∉ (a.remove_md_link_to d).md_links := by
  unfold Article.remove_md_link_to
  split
  · exact h.not_mem_erase
  · assumption

theorem remove_md_link_to_md_sub {a : Article} {d x : Name}
    (h : x ∈ (a.remove_md_link_to d).md_links) : x ∈ a.md_links := by
  unfold Article.remove_md_link_to at h
  split at h
  · exact List.mem_of_mem_erase h
  · exact h

theorem remove_md_link_to_md_mem {a : Article} {d x : Name}
    (hx : x ∈ a.md_links) (hne : x ≠ d) : x ∈ (a.remove_md_link_to d).md_links := by
  unfold Article.remove_md_link_to
  split
  · exact (List.mem_erase_of_ne hne).mpr hx
  · exact hx

theorem remove_md_link_to_nodup (a : Article) (d : Name) (h : a.md_links.Nodup) :
    (a.remove_md_link_to d).md_links.Nodup := by
  unfold Article.remove_md_link_to
  split
  · exact h.erase d
  · exact h

theorem add_md_link_from_name (a : Article) (s : Name) :
    (a.add_md_link_from s).name = a.name := by
  unfold Article.add_md_link_from; split <;> rfl

theorem add_md_link_from_md (a : Article) (s : Name) :
    (a.add_md_link_from s).md_links = a.md_links := by
  unfold Article.add_md_link_from; split <;> rfl

theorem add_md_link_from_exists (a : Article) (s : Name) :
    (a.add_md_link_from s).has_existing_file = a.has_existing_file := by
  unfold Article.add_md_link_from; split <;> rfl

theorem add_md_link_from_lf_mem (a : Article) (s : Name) :
    s ∈ (a.add_md_link_from s).linked_from := by
  unfold Article.add_md_link_from
  split
  · assumption
  · simp

theorem add_md_link_from_lf_super {a : Article} {s x : Name}
    (h : x ∈ a.linked_from) : x ∈ (a.add_md_link_from s).linked_from := by
  unfold Article.add_md_link_from
  split
  · exact h
  · simp [h]

theorem add_md_link_from_lf_cases {a : Article} {s x : Name}
    (h : x ∈ (a.add_md_link_from s).linked_from) : x ∈ a.linked_from ∨ x = s := by
  unfold Article.add_md_link_from at h
  split at h
  · exact Or.inl h
  · rcases List.mem_append.mp h with h1 | h1
    · exact Or.inl h1
    · simp at h1
      exact Or.inr h1

theorem add_md_link_from_nodup (a : Article) (s : Name) (h : a.linked_from.Nodup) :
    (a.add_md_link_from s).linked_from.Nodup := by
  unfold Article.add_md_link_from
  split
  · exact h
  · next hns => exact List.Nodup.append h (List.nodup_singleton s) (by simpa using hns)

theorem remove_md_link_from_name (a : Article) (s : Name) :
    ((a.remove_md_link_from s).1).name = a.name := by
  unfold Article.remove_md_link_from; split <;> rfl

theorem remove_md_link_from_md (a : Article) (s : Name) :
    ((a.remove_md_link_from s).1).md_links = a.md_links := by
  unfold Article.remove_md_link_from; split <;> rfl

theorem remove_md_link_from_exists (a : Article) (s : Name) :
    ((a.remove_md_link_from s).1).has_existing_file = a.has_existing_file := by
  unfold Article.remove_md_link_from; split <;> rfl

theorem remove_md_link_from_lf_sub {a : Article} {s x : Name}
    (h : x ∈ ((a.remove_md_link_from s).1).linked_from) : x ∈ a.linked_from := by
  unfold Article.remove_md_link_from at h
  split at h
  · exact List.mem_of_mem_erase h
  · exact h

theorem remove_md_link_from_lf_mem {a : Article} {s x : Name}
    (hx : x ∈ a.linked_from) (hne : x ≠ s) :
    x ∈ ((a.remove_md_link_from s).1).linked_from := by
  unfold Article.remove_md_link_from
  split
  · exact (List.mem_erase_of_ne hne).mpr hx
  · exact hx

theorem remove_md_link_from_nodup (a : Article) (s : Name) (h : a.linked_from.Nodup) :
    ((a.remove_md_link_from s).1).linked_from.Nodup := by
  unfold Article.remove_md_link_from
  split
  · exact h.erase s
  · exact h

/-- When `remove_md_link_from` reports deletion, the inbound list was exactly
the singleton of the removed source and the file does not exist. -/
theorem remove_md_link_from_true {a : Article} {s : Name}
    (h : (a.remove_md_link_from s).2 = true) :
    a.linked_from = [s] ∧ a.has_existing_file = false := by
  unfold Article.remove_md_link_from at h
  split at h
  · next hmem =>
      simp only [Article.is_not_linked_to, Article.is_not_written, Bool.and_eq_true,
        beq_iff_eq, Bool.not_eq_true', List.length_eq_zero] at h
      have hlen := List.length_erase_of_mem hmem
      rw [h.1] at hlen
      refine ⟨?_, h.2⟩
      cases hl : a.linked_from with
      | nil => rw [hl] at hmem; cases hmem
      | cons y t =>
          rw [hl] at hlen
          simp at hlen
          have ht : t = [] := List.length_eq_zero.mp (by omega)
          rw [ht] at hl ⊢
          rw [hl] at hmem
          have : s = y := by simpa [ht] using hmem
          rw [this]
  · cases h

/-! ### Evaluation equations for `add_link_between_articles` -/

theorem add_eq_creation (st : ArticleExaminer) (s d : Name)
    (hnone : lookupArticle st.articles d = none) :
    add_link_between_articles st s d = add_link_between_articles
      { st with articles := setArticle st.articles d (Article.init d false)
                log_archive := st.log_archive ++ [LogEntry.articleAdded d] } s d := by
  conv_lhs => unfold add_link_between_articles
  conv_rhs => unfold add_link_between_articles
  rw [hnone]
  simp [lookup_set_self]

theorem add_eq_stale (st1 : ArticleExaminer) (s d : Name) (src d0 : Article)
    (hd0 : lookupArticle st1.articles d = some d0)
    (hsrc1 : lookupArticle st1.articles s = some src)
    (hfresh : d ∈ src.md_links) :
    add_link_between_articles st1 s d = st1 := by
  have hadd : src.add_md_link_to d = (src, false) := by
    unfold Article.add_md_link_to
    rw [if_pos hfresh]
  unfold add_link_between_articles
  simp [hd0, hsrc1, hadd]

theorem add_eq_self (st1 : ArticleExaminer) (s : Name) (src : Article)
    (hsrc1 : lookupArticle st1.articles s = some src)
    (hfresh : s ∉ src.md_links) :
    (add_link_between_articles st1 s s).articles =
      setArticle (setArticle st1.articles s { src with md_links := src.md_links ++ [s] }) s
        (({ src with md_links := src.md_links ++ [s] } : Article).add_md_link_from s) := by
  have hadd : src.add_md_link_to s =
      ({ src with md_links := src.md_links ++ [s] }, true) := by
    unfold Article.add_md_link_to
    rw [if_neg hfresh]
  unfold add_link_between_articles
  simp [hsrc1, hadd, lookup_set_self]

theorem add_eq_ne (st1 : ArticleExaminer) (s d : Name) (src d0 : Article)
    (hd0 : lookupArticle st1.articles d = some d0)
    (hsrc1 : lookupArticle st1.articles s = some src)
    (hfresh : d ∉ src.md_links) (hsd : s ≠ d) :
    (add_link_between_articles st1 s d).articles =
      setArticle (setArticle st1.articles s { src with md_links := src.md_links ++ [d] }) d
        (d0.add_md_link_from s) := by
  have hadd : src.add_md_link_to d =
      ({ src with md_links := src.md_links ++ [d] }, true) := by
    unfold Article.add_md_link_to
    rw [if_neg hfresh]
  have hlk : lookupArticle
      (setArticle st1.articles s { src with md_links := src.md_links ++ [d] }) d = some d0 := by
    rw [lookup_set_ne _ _ _ _ (fun e => hsd e.symm)]
    exact hd0
  unfold add_link_between_articles
  simp [hd0, hsrc1, hadd, hlk]

/-! ### Well-formedness preservation for `add_link_between_articles` -/

theorem create_placeholder_wf {m : Articles} {d : Name} (hW : WellFormedGraph m)
    (hnone : lookupArticle m d = none) :
    WellFormedGraph (setArticle m d (Article.init d false)) := by
  obtain ⟨hSym, hCl, hNd⟩ := hW
  have hl : ∀ n, lookupArticle (setArticle m d (Article.init d false)) n =
      if n = d then some (Article.init d false) else lookupArticle m n := by
    intro n
    by_cases hnd : n = d
    · subst hnd
      rw [if_pos rfl, lookup_set_self]
    · rw [if_neg hnd, lookup_set_ne _ _ _ _ hnd]
  refine ⟨?_, ?_, ?_⟩
  · intro A B a b hA hB hmem
    rw [hl] at hA hB
    by_cases hAd : A = d
    · rw [if_pos hAd] at hA
      cases Option.some_inj.mp hA
      simp [Article.init] at hmem
    · rw [if_neg hAd] at hA
      by_cases hBd : B = d
      · rw [if_pos hBd] at hB
        exfalso
        have := hCl A a hA B hmem
        rw [hBd, hnone] at this
        cases this
      · rw [if_neg hBd] at hB
        exact hSym A B a b hA hB hmem
  · intro A a hA B hBmem
    rw [hl] at hA
    rw [hl]
    by_cases hBd : B = d
    · rw [if_pos hBd]; rfl
    · rw [if_neg hBd]
      by_cases hAd : A = d
      · rw [if_pos hAd] at hA
        cases Option.some_inj.mp hA
        simp [Article.init] at hBmem
      · rw [if_neg hAd] at hA
        exact hCl A a hA B hBmem
  · intro A a hA
    rw [hl] at hA
    by_cases hAd : A = d
    · rw [if_pos hAd] at hA
      cases Option.some_inj.mp hA
      exact ⟨List.nodup_nil, List.nodup_nil⟩
    · rw [if_neg hAd] at hA
      exact hNd A a hA

theorem add_wf_self (st1 : ArticleExaminer) (s : Name) (src : Article)
    (hW1 : WellFormedGraph st1.articles)
    (hsrc1 : lookupArticle st1.articles s = some src)
    (hfresh : s ∉ src.md_links) :
    WellFormedGraph (add_link_between_articles st1 s s).articles := by
  obtain ⟨hSym, hCl, hNd⟩ := hW1
  rw [add_eq_self st1 s src hsrc1 hfresh]
  set src' : Article := { src with md_links := src.md_links ++ [s] } with hsrc'
  set dst' : Article := src'.add_md_link_from s with hdst'
  have hl : ∀ n, lookupArticle (setArticle (setArticle st1.articles s src') s dst') n =
      if n = s then some dst' else lookupArticle st1.articles n := by
    intro n
    by_cases hns : n = s
    · subst hns
      rw [if_pos rfl, lookup_set_self]
    · rw [if_neg hns, lookup_set_ne _ _ _ _ hns, lookup_set_ne _ _ _ _ hns]
  have hdmd : dst'.md_links = src.md_links ++ [s] := by
    rw [hdst', add_md_link_from_md, hsrc']
  have hdlf_sub : ∀ x, x ∈ dst'.linked_from → x ∈ src.linked_from ∨ x = s := by
    intro x hx
    rcases add_md_link_from_lf_cases hx with h | h
    · rw [hsrc'] at h
      exact Or.inl h
    · exact Or.inr h
  have hdlf_super : ∀ x, x ∈ src.linked_from → x ∈ dst'.linked_from := by
    intro x hx
    exact add_md_link_from_lf_super (by rw [hsrc']; exact hx)
  refine ⟨?_, ?_, ?_⟩
  · intro A B a b hA hB hmem
    rw [hl] at hA hB
    by_cases hBs : B = s
    · rw [if_pos hBs] at hB
      cases Option.some_inj.mp hB
      by_cases hAs : A = s
      · rw [hAs]
        exact add_md_link_from_lf_mem src' s
      · rw [if_neg hAs] at hA
        rw [hBs] at hmem
        exact hdlf_super A (hSym A s a src hA hsrc1 hmem)
    · rw [if_neg hBs] at hB
      by_cases hAs : A = s
      · rw [if_pos hAs] at hA
        cases Option.some_inj.mp hA
        rw [hdmd] at hmem
        rcases List.mem_append.mp hmem with h | h
        · rw [hAs]
          exact hSym s B src b hsrc1 hB h
        · simp at h
          exact absurd h hBs
      · rw [if_neg hAs] at hA
        exact hSym A B a b hA hB hmem
  · intro A a hA B hBmem
    rw [hl] at hA
    rw [hl]
    by_cases hBs : B = s
    · rw [if_pos hBs]; rfl
    · rw [if_neg hBs]
      by_cases hAs : A = s
      · rw [if_pos hAs] at hA
        cases Option.some_inj.mp hA
        rw [hdmd] at hBmem
        rcases List.mem_append.mp hBmem with h | h
        · exact hCl s src hsrc1 B h
        · simp at h
          exact absurd h hBs
      · rw [if_neg hAs] at hA
        exact hCl A a hA B hBmem
  · intro A a hA
    rw [hl] at hA
    by_cases hAs : A = s
    · rw [if_pos hAs] at hA
      cases Option.some_inj.mp hA
      constructor
      · rw [hdmd]
        exact List.Nodup.append (hNd s src hsrc1).1 (List.nodup_singleton s)
          (by simpa using hfresh)
      · rw [hdst']
        refine add_md_link_from_nodup src' s ?_
        rw [hsrc']
        exact (hNd s src hsrc1).2
    · rw [if_neg hAs] at hA
      exact hNd A a hA

theorem add_wf_ne (st1 : ArticleExaminer) (s d : Name) (src d0 : Article)
    (hW1 : WellFormedGraph st1.articles)
    (hd0 : lookupArticle st1.articles d = some d0)
    (hsrc1 : lookupArticle st1.articles s = some src)
    (hfresh : d ∉ src.md_links) (hsd : s ≠ d) :
    WellFormedGraph (add_link_between_articles st1 s d).articles := by
  obtain ⟨hSym, hCl, hNd⟩ := hW1
  rw [add_eq_ne st1 s d src d0 hd0 hsrc1 hfresh hsd]
  set src' : Article := { src with md_links := src.md_links ++ [d] } with hsrc'
  set dst' : Article := d0.add_md_link_from s with hdst'
  have hl : ∀ n, lookupArticle (setArticle (setArticle st1.articles s src') d dst') n =
      if n = d then some dst' else if n = s then some src' else
        lookupArticle st1.articles n := by
    intro n
    by_cases hnd : n = d
    · subst hnd
      rw [if_pos rfl, lookup_set_self]
    · rw [if_neg hnd, lookup_set_ne _ _ _ _ hnd]
      by_cases hns : n = s
      · subst hns
        rw [if_pos rfl, lookup_set_self]
      · rw [if_neg hns, lookup_set_ne _ _ _ _ hns]
  have hdmd : dst'.md_links = d0.md_links := by
    rw [hdst', add_md_link_from_md]
  have hsmd : src'.md_links = src.md_links ++ [d] := by rw [hsrc']
  have hslf : src'.linked_from = src.linked_from := by rw [hsrc']
  refine ⟨?_, ?_, ?_⟩
  · intro A B a b hA hB hmem
    rw [hl] at hA hB
    by_cases hBd : B = d
    · rw [if_pos hBd] at hB
      cases Option.some_inj.mp hB
      by_cases hAd : A = d
      · rw [if_pos hAd] at hA
        cases Option.some_inj.mp hA
        rw [hdmd] at hmem
        rw [hBd] at hmem
        rw [hAd]
        exact add_md_link_from_lf_super (hSym d d d0 d0 hd0 hd0 hmem)
      · rw [if_neg hAd] at hA
        by_cases hAs : A = s
        · rw [hAs]
          exact add_md_link_from_lf_mem d0 s
        · rw [if_neg hAs] at hA
          rw [hBd] at hmem
          exact add_md_link_from_lf_super (hSym A d a d0 hA hd0 hmem)
    · rw [if_neg hBd] at hB
      by_cases hBs : B = s
      · rw [if_pos hBs] at hB
        cases Option.some_inj.mp hB
        rw [hslf]
        by_cases hAd : A = d
        · rw [if_pos hAd] at hA
          cases Option.some_inj.mp hA
          rw [hdmd, hBs] at hmem
          rw [hAd]
          exact hSym d s d0 src hd0 hsrc1 hmem
        · rw [if_neg hAd] at hA
          by_cases hAs : A = s
          · rw [if_pos hAs] at hA
            cases Option.some_inj.mp hA
            rw [hsmd, hBs] at hmem
            rcases List.mem_append.mp hmem with h | h
            · rw [hAs]
              exact hSym s s src src hsrc1 hsrc1 h
            · simp at h
              exact absurd h hsd
          · rw [if_neg hAs] at hA
            exact hSym A s a src hA hsrc1 (hBs ▸ hmem)
      · rw [if_neg hBs] at hB
        by_cases hAd : A = d
        · rw [if_pos hAd] at hA
          cases Option.some_inj.mp hA
          rw [hdmd] at hmem
          rw [hAd]
          exact hSym d B d0 b hd0 hB hmem
        · rw [if_neg hAd] at hA
          by_cases hAs : A = s
          · rw [if_pos hAs] at hA
            cases Option.some_inj.mp hA
            rw [hsmd] at hmem
            rcases List.mem_append.mp hmem with h | h
            · exact hSym A B src b (hAs ▸ hsrc1) hB h
            · simp at h
              exact absurd h hBd
          · rw [if_neg hAs] at hA
            exact hSym A B a b hA hB hmem
  · intro A a hA B hBmem
    rw [hl] at hA
    rw [hl]
    by_cases hBd : B = d
    · rw [if_pos hBd]; rfl
    · rw [if_neg hBd]
      by_cases hBs : B = s
      · rw [if_pos hBs]; rfl
      · rw [if_neg hBs]
        by_cases hAd : A = d
        · rw [if_pos hAd] at hA
          cases Option.some_inj.mp hA
          rw [hdmd] at hBmem
          exact hCl d d0 hd0 B hBmem
        · rw [if_neg hAd] at hA
          by_cases hAs : A = s
          · rw [if_pos hAs] at hA
            cases Option.some_inj.mp hA
            rw [hsmd] at hBmem
            rcases List.mem_append.mp hBmem with h | h
            · exact hCl s src hsrc1 B h
            · simp at h
              exact absurd h hBd
          · rw [if_neg hAs] at hA
            exact hCl A a hA B hBmem
  · intro A a hA
    rw [hl] at hA
    by_cases hAd : A = d
    · rw [if_pos hAd] at hA
      cases Option.some_inj.mp hA
      constructor
      · rw [hdmd]
        exact (hNd d d0 hd0).1
      · rw [hdst']
        exact add_md_link_from_nodup d0 s (hNd d d0 hd0).2
    · rw [if_neg hAd] at hA
      by_cases hAs : A = s
      · rw [if_pos hAs] at hA
        cases Option.some_inj.mp hA
        constructor
        · rw [hsmd]
          exact List.Nodup.append (hNd s src hsrc1).1 (List.nodup_singleton d)
            (by simpa using hfresh)
        · rw [hslf]
          exact (hNd s src hsrc1).2
      · rw [if_neg hAs] at hA
        exact hNd A a hA

/-- `add_link_between_articles` preserves graph well-formedness when the
source is present. -/
theorem add_preserves_wf (st : ArticleExaminer) (s d : Name)
    (hW : WellFormedGraph st.articles)
    (hs : (lookupArticle st.articles s).isSome = true) :
    WellFormedGraph (add_link_between_articles st s d).articles := by
  obtain ⟨src, hsrc⟩ := Option.isSome_iff_exists.mp hs
  cases hd : lookupArticle st.articles d with
  | none =>
      have hsd : s ≠ d := fun e => by rw [e, hd] at hsrc; cases hsrc
      rw [add_eq_creation st s d hd]
      set st1 : ArticleExaminer :=
        { st with articles := setArticle st.articles d (Article.init d false)
                  log_archive := st.log_archive ++ [LogEntry.articleAdded d] } with hst1
      have hW1 : WellFormedGraph st1.articles := create_placeholder_wf hW hd
      have hd1 : lookupArticle st1.articles d = some (Article.init d false) := by
        rw [hst1]
        exact lookup_set_self st.articles d (Article.init d false)
      have hs1 : lookupArticle st1.articles s = some src := by
        rw [hst1]
        show lookupArticle (setArticle st.articles d (Article.init d false)) s = some src
        rw [lookup_set_ne _ _ _ _ hsd]
        exact hsrc
      by_cases hfresh : d ∈ src.md_links
      · rw [add_eq_stale st1 s d src (Article.init d false) hd1 hs1 hfresh]
        exact hW1
      · exact add_wf_ne st1 s d src (Article.init d false) hW1 hd1 hs1 hfresh hsd
  | some d0 =>
      by_cases hfresh : d ∈ src.md_links
      · rw [add_eq_stale st s d src d0 hd hsrc hfresh]
        exact hW
      · by_cases hsd : s = d
        · subst hsd
          exact add_wf_self st s src hW hsrc hfresh
        · exact add_wf_ne st s d src d0 hW hd hsrc hfresh hsd

/-! ## Claim C2 -/

theorem remove_link_eq (st : ArticleExaminer) (s d : Name) (src : Article)
    (hs : lookupArticle st.articles s = some src) :
    remove_link_between_articles st s d =
      (match lookupArticle (setArticle st.articles s (src.remove_md_link_to d)) d with
       | none =>
          ({ st with
             articles := setArticle st.articles s (src.remove_md_link_to d)
             log_archive := st.log_archive ++ [LogEntry.mdLinkRemoved s d] }, none)
       | some dst =>
          if (dst.remove_md_link_from s).2 then
            ({ st with
               articles := delArticle (setArticle st.articles s (src.remove_md_link_to d)) d
               log_archive := (st.log_archive ++ [LogEntry.mdLinkRemoved s d]) ++
                 [LogEntry.articleRemoved d] }, some d)
          else
            ({ st with
               articles := setArticle (setArticle st.articles s (src.remove_md_link_to d)) d
                 (dst.remove_md_link_from s).1
               log_archive := st.log_archive ++ [LogEntry.mdLinkRemoved s d] }, none)) := by
  unfold remove_link_between_articles
  rw [hs]

/-- A nonempty list has a `length == 0` test equal to `false`. -/
theorem length_beq_zero_false {l : List Name} {x : Name} (h : x ∈ l) :
    (l.length == 0) = false := by
  cases l with
  | nil => cases h
  | cons y t => rfl

/-- **C2.** With the source linking to the destination (so the source is in
the destination's inbound list), `remove_link_between_articles` deletes the
destination's article exactly when removing the source from its inbound links
leaves them empty and its file does not exist; on deletion the identity is
reported and the entry is gone, otherwise the entry survives. -/
theorem claim2_cascading_deletion (st : ArticleExaminer) (s d : Name) (src dst : Article)
    (hs : lookupArticle st.articles s = some src)
    (hd : lookupArticle st.articles d = some dst)
    (hin : s ∈ dst.linked_from) :
    ((remove_link_between_articles st s d).2 = some d ↔
      (dst.linked_from.erase s = [] ∧ dst.has_existing_file = false)) ∧
    ((remove_link_between_articles st s d).2 = some d →
      lookupArticle (remove_link_between_articles st s d).1.articles d = none) ∧
    ((remove_link_between_articles st s d).2 = none →
      ∃ a, lookupArticle (remove_link_between_articles st s d).1.articles d = some a) := by
  rw [remove_link_eq st s d src hs]
  have hdst : ∃ dstX, lookupArticle (setArticle st.articles s (src.remove_md_link_to d)) d
      = some dstX ∧ dstX.linked_from = dst.linked_from ∧
      dstX.has_existing_file = dst.has_existing_file := by
    by_cases hsd : s = d
    · subst hsd
      have hsrc : src = dst := by
        rw [hd] at hs
        exact (Option.some_inj.mp hs).symm
      refine ⟨src.remove_md_link_to s, lookup_set_self st.articles s (src.remove_md_link_to s), ?_, ?_⟩
      · unfold Article.remove_md_link_to
        split <;> simp [hsrc]
      · unfold Article.remove_md_link_to
        split <;> simp [hsrc]
    · refine ⟨dst, ?_, rfl, rfl⟩
      rw [lookup_set_ne st.articles s d (src.remove_md_link_to d) (fun e => hsd e.symm), hd]
  obtain ⟨dstX, hX, hXlf, hXex⟩ := hdst
  have hinX : s ∈ dstX.linked_from := hXlf ▸ hin
  have hrm : dstX.remove_md_link_from s =
      ({ dstX with linked_from := dstX.linked_from.erase s },
        ((dstX.linked_from.erase s).length == 0) && !dstX.has_existing_file) := by
    unfold Article.remove_md_link_from Article.is_not_linked_to Article.is_not_written
    rw [if_pos hinX]
  simp only [hX, hrm]
  by_cases hb : (((dstX.linked_from.erase s).length == 0) && !dstX.has_existing_file) = true
  · rw [if_pos hb]
    simp only [Bool.and_eq_true, beq_iff_eq, Bool.not_eq_true', List.length_eq_zero] at hb
    refine ⟨⟨fun _ => ?_, fun _ => rfl⟩, fun _ => ?_, fun h => ?_⟩
    · rw [← hXlf, ← hXex]; exact hb
    · exact lookup_del_self _ d
    · cases h
  · rw [if_neg hb]
    simp only [Bool.and_eq_true, beq_iff_eq, Bool.not_eq_true', List.length_eq_zero] at hb
    refine ⟨⟨fun h => ?_, fun h => ?_⟩, fun h => ?_, fun _ => ?_⟩
    · cases h
    · exact absurd ⟨hXlf ▸ h.1, hXex ▸ h.2⟩ hb
    · cases h
    · exact ⟨_, lookup_set_self _ d _⟩

/-- Witness for C2: with `a.md` the sole linker of the non-existent
placeholder `b.md`, removing the link deletes `b.md` and reports it. -/
theorem claim2_witness :
    (remove_link_between_articles
      { emptyExaminer with articles :=
          [(nm "a.md",
            { name := nm "a.md", last_modified := 1, has_existing_file := true,
              md_links := [nm "b.md"], linked_from := [], all_links := [nm "b.md"] }),
           (nm "b.md",
            { name := nm "b.md", last_modified := 0, has_existing_file := false,
              md_links := [], linked_from := [nm "a.md"], all_links := [] })] }
      (nm "a.md") (nm "b.md")).2 = some (nm "b.md") := by
  exact (claim2_cascading_deletion _ (nm "a.md") (nm "b.md")
    { name := nm "a.md", last_modified := 1, has_existing_file := true,
      md_links := [nm "b.md"], linked_from := [], all_links := [nm "b.md"] }
    { name := nm "b.md", last_modified := 0, has_existing_file := false,
      md_links := [], linked_from := [nm "a.md"], all_links := [] }
    (by decide) (by decide) (by decide)).1.mpr (by decide)

/-! ### Well-formedness preservation for `remove_link_between_articles` -/

theorem remove_preserves_wf (st : ArticleExaminer) (s d : Name)
    (hW : WellFormedGraph st.articles)
    (hs : (lookupArticle st.articles s).isSome = true)
    (hd : (lookupArticle st.articles d).isSome = true) :
    WellFormedGraph (remove_link_between_articles st s d).1.articles := by
  obtain ⟨hSym, hCl, hNd⟩ := hW
  obtain ⟨src, hsrc⟩ := Option.isSome_iff_exists.mp hs
  rw [remove_link_eq st s d src hsrc]
  set src1 : Article := src.remove_md_link_to d with hsrc1def
  have hsrc1md_sub : ∀ x ∈ src1.md_links, x ∈ src.md_links := by
    intro x hx
    exact remove_md_link_to_md_sub hx
  have hsrc1lf : src1.linked_from = src.linked_from := remove_md_link_to_lf src d
  have hd_not : d ∉ src1.md_links :=
    remove_md_link_to_not_mem src d (hNd s src hsrc).1
  have hsrc1nodup : src1.md_links.Nodup :=
    remove_md_link_to_nodup src d (hNd s src hsrc).1
  have hdXex : ∃ dstX, lookupArticle (setArticle st.articles s src1) d = some dstX ∧
      ((s = d ∧ dstX = src1) ∨ (s ≠ d ∧ lookupArticle st.articles d = some dstX)) := by
    by_cases hsd : s = d
    · subst hsd
      exact ⟨src1, lookup_set_self st.articles s src1, Or.inl ⟨rfl, rfl⟩⟩
    · obtain ⟨d0, hd0⟩ := Option.isSome_iff_exists.mp hd
      refine ⟨d0, ?_, Or.inr ⟨hsd, hd0⟩⟩
      rw [lookup_set_ne _ _ _ _ (fun e => hsd e.symm)]
      exact hd0
  obtain ⟨dstX, hdX, hcase⟩ := hdXex
  -- an article of the original graph carrying the destination's inbound list
  have hdm : ∃ dstm, lookupArticle st.articles d = some dstm ∧
      dstm.linked_from = dstX.linked_from := by
    rcases hcase with ⟨hsd, hXv⟩ | ⟨hsd, h0⟩
    · refine ⟨src, ?_, ?_⟩
      · rw [← hsd]; exact hsrc
      · rw [hXv, hsrc1lf]
    · exact ⟨dstX, h0, rfl⟩
  obtain ⟨dstm, hdm0, hdmlf⟩ := hdm
  -- duplicate-freeness of the destination's lists
  have hdXnodup : dstX.md_links.Nodup ∧ dstX.linked_from.Nodup := by
    rcases hcase with ⟨hsd, hXv⟩ | ⟨hsd, h0⟩
    · rw [hXv]
      exact ⟨hsrc1nodup, hsrc1lf ▸ (hNd s src hsrc).2⟩
    · exact hNd d dstX h0
  simp only [hdX]
  by_cases hb : (dstX.remove_md_link_from s).2 = true
  · -- cascade: the destination is deleted
    rw [if_pos hb]
    show WellFormedGraph (delArticle (setArticle st.articles s src1) d)
    obtain ⟨hXlf, hXex⟩ := remove_md_link_from_true hb
    have hl2 : ∀ n, lookupArticle (delArticle (setArticle st.articles s src1) d) n =
        if n = d then none else if n = s then some src1 else
          lookupArticle st.articles n := by
      intro n
      by_cases hnd : n = d
      · subst hnd
        rw [if_pos rfl, lookup_del_self]
      · rw [if_neg hnd, lookup_del_ne _ _ _ hnd]
        by_cases hns : n = s
        · subst hns
          rw [if_pos rfl, lookup_set_self]
        · rw [if_neg hns, lookup_set_ne _ _ _ _ hns]
    refine ⟨?_, ?_, ?_⟩
    · intro A B a b hA hB hmem
      rw [hl2] at hA hB
      by_cases hAd : A = d
      · rw [if_pos hAd] at hA; cases hA
      · rw [if_neg hAd] at hA
        by_cases hBd : B = d
        · rw [if_pos hBd] at hB; cases hB
        · rw [if_neg hBd] at hB
          by_cases hAs : A = s
          · rw [if_pos hAs] at hA
            cases Option.some_inj.mp hA
            have hmem' : B ∈ src.md_links := hsrc1md_sub B hmem
            by_cases hBs : B = s
            · rw [if_pos hBs] at hB
              cases Option.some_inj.mp hB
              rw [hsrc1lf, hAs, ← hBs]
              exact hSym B B src src (hBs ▸ hsrc) (hBs ▸ hsrc) hmem'
            · rw [if_neg hBs] at hB
              exact hSym A B src b (hAs ▸ hsrc) hB hmem'
          · rw [if_neg hAs] at hA
            by_cases hBs : B = s
            · rw [if_pos hBs] at hB
              cases Option.some_inj.mp hB
              rw [hsrc1lf]
              exact hSym A B a src hA (hBs ▸ hsrc) hmem
            · rw [if_neg hBs] at hB
              exact hSym A B a b hA hB hmem
    · intro A a hA B hBmem
      rw [hl2] at hA
      rw [hl2]
      by_cases hAd : A = d
      · rw [if_pos hAd] at hA; cases hA
      · rw [if_neg hAd] at hA
        have hBd : B ≠ d := by
          by_cases hAs : A = s
          · rw [if_pos hAs] at hA
            cases Option.some_inj.mp hA
            intro hBd
            exact hd_not (hBd ▸ hBmem)
          · rw [if_neg hAs] at hA
            intro hBd
            have hAin : A ∈ dstm.linked_from :=
              hSym A d a dstm hA hdm0 (hBd ▸ hBmem)
            rw [hdmlf, hXlf] at hAin
            simp at hAin
            exact hAs hAin
        rw [if_neg hBd]
        by_cases hBs : B = s
        · rw [if_pos hBs]; rfl
        · rw [if_neg hBs]
          by_cases hAs : A = s
          · rw [if_pos hAs] at hA
            cases Option.some_inj.mp hA
            exact hCl s src hsrc B (hsrc1md_sub B hBmem)
          · rw [if_neg hAs] at hA
            exact hCl A a hA B hBmem
    · intro A a hA
      rw [hl2] at hA
      by_cases hAd : A = d
      · rw [if_pos hAd] at hA; cases hA
      · rw [if_neg hAd] at hA
        by_cases hAs : A = s
        · rw [if_pos hAs] at hA
          cases Option.some_inj.mp hA
          exact ⟨hsrc1nodup, hsrc1lf ▸ (hNd s src hsrc).2⟩
        · rw [if_neg hAs] at hA
          exact hNd A a hA
  · -- no cascade: the destination's inbound list is updated in place
    rw [if_neg hb]
    show WellFormedGraph (setArticle (setArticle st.articles s src1) d
      (dstX.remove_md_link_from s).1)
    set dstX' : Article := (dstX.remove_md_link_from s).1 with hdstX'
    have hXmd : dstX'.md_links = dstX.md_links := remove_md_link_from_md dstX s
    have hl2 : ∀ n, lookupArticle (setArticle (setArticle st.articles s src1) d dstX') n =
        if n = d then some dstX' else if n = s then some src1 else
          lookupArticle st.articles n := by
      intro n
      by_cases hnd : n = d
      · subst hnd
        rw [if_pos rfl, lookup_set_self]
      · rw [if_neg hnd, lookup_set_ne _ _ _ _ hnd]
        by_cases hns : n = s
        · subst hns
          rw [if_pos rfl, lookup_set_self]
        · rw [if_neg hns, lookup_set_ne _ _ _ _ hns]
    refine ⟨?_, ?_, ?_⟩
    · intro A B a b hA hB hmem
      rw [hl2] at hA hB
      by_cases hBd : B = d
      · rw [if_pos hBd] at hB
        cases Option.some_inj.mp hB
        by_cases hAd : A = d
        · rw [if_pos hAd] at hA
          cases Option.some_inj.mp hA
          rw [hXmd] at hmem
          rcases hcase with ⟨hsd, hXv⟩ | ⟨hsd, h0⟩
          · exfalso
            rw [hXv, hBd] at hmem
            exact hd_not hmem
          · have hdd : d ∈ dstX.linked_from :=
              hSym d d dstX dstX h0 h0 (hBd ▸ hmem)
            rw [hAd]
            exact remove_md_link_from_lf_mem hdd (fun e => hsd e.symm)
        · rw [if_neg hAd] at hA
          by_cases hAs : A = s
          · rw [if_pos hAs] at hA
            cases Option.some_inj.mp hA
            exact absurd (hBd ▸ hmem) hd_not
          · rw [if_neg hAs] at hA
            have hAin : A ∈ dstm.linked_from :=
              hSym A d a dstm hA hdm0 (hBd ▸ hmem)
            rw [hdmlf] at hAin
            exact remove_md_link_from_lf_mem hAin hAs
      · rw [if_neg hBd] at hB
        by_cases hBs : B = s
        · rw [if_pos hBs] at hB
          cases Option.some_inj.mp hB
          rw [hsrc1lf]
          have hsd : s ≠ d := fun e => hBd (hBs.trans e)
          by_cases hAd : A = d
          · rw [if_pos hAd] at hA
            cases Option.some_inj.mp hA
            rw [hXmd, hBs] at hmem
            rcases hcase with ⟨hsd2, _⟩ | ⟨_, h0⟩
            · exact absurd hsd2 hsd
            · rw [hAd]
              exact hSym d s dstX src h0 hsrc hmem
          · rw [if_neg hAd] at hA
            by_cases hAs : A = s
            · rw [if_pos hAs] at hA
              cases Option.some_inj.mp hA
              rw [hBs] at hmem
              rw [hAs]
              exact hSym s s src src hsrc hsrc (hsrc1md_sub s hmem)
            · rw [if_neg hAs] at hA
              exact hSym A s a src hA hsrc (hBs ▸ hmem)
        · rw [if_neg hBs] at hB
          by_cases hAd : A = d
          · rw [if_pos hAd] at hA
            cases Option.some_inj.mp hA
            rw [hXmd] at hmem
            rcases hcase with ⟨hsd, hXv⟩ | ⟨hsd, h0⟩
            · rw [hXv] at hmem
              rw [hAd, ← hsd]
              exact hSym s B src b hsrc hB (hsrc1md_sub B hmem)
            · rw [hAd]
              exact hSym d B dstX b h0 hB hmem
          · rw [if_neg hAd] at hA
            by_cases hAs : A = s
            · rw [if_pos hAs] at hA
              cases Option.some_inj.mp hA
              exact hSym A B src b (hAs ▸ hsrc) hB (hsrc1md_sub B hmem)
            · rw [if_neg hAs] at hA
              exact hSym A B a b hA hB hmem
    · intro A a hA B hBmem
      rw [hl2] at hA
      rw [hl2]
      by_cases hBd : B = d
      · rw [if_pos hBd]; rfl
      · rw [if_neg hBd]
        by_cases hBs : B = s
        · rw [if_pos hBs]; rfl
        · rw [if_neg hBs]
          by_cases hAd : A = d
          · rw [if_pos hAd] at hA
            cases Option.some_inj.mp hA
            rw [hXmd] at hBmem
            rcases hcase with ⟨hsd, hXv⟩ | ⟨hsd, h0⟩
            · rw [hXv] at hBmem
              exact hCl s src hsrc B (hsrc1md_sub B hBmem)
            · exact hCl d dstX h0 B hBmem
          · rw [if_neg hAd] at hA
            by_cases hAs : A = s
            · rw [if_pos hAs] at hA
              cases Option.some_inj.mp hA
              exact hCl s src hsrc B (hsrc1md_sub B hBmem)
            · rw [if_neg hAs] at hA
              exact hCl A a hA B hBmem
    · intro A a hA
      rw [hl2] at hA
      by_cases hAd : A = d
      · rw [if_pos hAd] at hA
        cases Option.some_inj.mp hA
        refine ⟨?_, remove_md_link_from_nodup dstX s hdXnodup.2⟩
        rw [hXmd]
        exact hdXnodup.1
      · rw [if_neg hAd] at hA
        by_cases hAs : A = s
        · rw [if_pos hAs] at hA
          cases Option.some_inj.mp hA
          exact ⟨hsrc1nodup, hsrc1lf ▸ (hNd s src hsrc).2⟩
        · rw [if_neg hAs] at hA
          exact hNd A a hA

/-- **C1 (amended).**  The biconditional symmetry invariant alone is not
inductive (see the counterexample); the invariant that the operations do
preserve is graph well-formedness: the forward direction
`B ∈ A.md_links → A ∈ B.linked_from` together with closedness of tracked
links and duplicate-freeness, for operations whose source and destination
are present in the mapping. -/
theorem claim1_symmetry_invariant (st : ArticleExaminer) (s d : Name)
    (hW : WellFormedGraph st.articles)
    (hs : (lookupArticle st.articles s).isSome = true)
    (hd : (lookupArticle st.articles d).isSome = true) :
    WellFormedGraph (add_link_between_articles st s d).articles ∧
    WellFormedGraph (remove_link_between_articles st s d).1.articles :=
  ⟨add_preserves_wf st s d hW hs, remove_preserves_wf st s d hW hs hd⟩

/-- A state satisfying the biconditional symmetry invariant in which `a.md`
holds a dangling tracked link to the absent `b.md`. -/
def c1State : ArticleExaminer :=
  { emptyExaminer with articles :=
      [(nm "a.md",
        { name := nm "a.md", last_modified := 1, has_existing_file := true,
          md_links := [nm "b.md"], linked_from := [], all_links := [nm "b.md"] }),
       (nm "s.md", Article.init (nm "s.md") true)] }

/-- Counterexample to C1 as stated: `c1State` satisfies the biconditional
invariant (the pair `(a.md, b.md)` is unconstrained because `b.md` is absent),
but after `add_link_between_articles s.md b.md` creates the `b.md`
placeholder, `b.md ∈ a.md.md_links` while `a.md ∉ b.md.linked_from`. -/
theorem claim1_counterexample :
    SymmIff c1State.articles ∧
    ¬ SymmIff (add_link_between_articles c1State (nm "s.md") (nm "b.md")).articles := by
  constructor
  · exact symmIff_of_entries (by decide)
  · intro h
    have h2 := h (nm "a.md") (nm "b.md")
      { name := nm "a.md", last_modified := 1, has_existing_file := true,
        md_links := [nm "b.md"], linked_from := [], all_links := [nm "b.md"] }
      { name := nm "b.md", last_modified := 0, has_existing_file := false,
        md_links := [], linked_from := [nm "s.md"], all_links := [] }
      (by decide) (by decide)
    have h3 := h2.mp (by decide)
    revert h3
    decide

/-- A small well-formed two-article graph used to instantiate C1. -/
def c1WitnessState : ArticleExaminer :=
  { emptyExaminer with articles :=
      [(nm "x.md",
        { name := nm "x.md", last_modified := 1, has_existing_file := true,
          md_links := [nm "y.md"], linked_from := [], all_links := [nm "y.md"] }),
       (nm "y.md",
        { name := nm "y.md", last_modified := 1, has_existing_file := true,
          md_links := [], linked_from := [nm "x.md"], all_links := [] })] }

/-- Witness for C1: the amended invariant is preserved on a concrete
well-formed graph by both operations. -/
theorem claim1_witness :
    ((lookupArticle c1WitnessState.articles (nm "x.md")).isSome = true) ∧
    ((lookupArticle c1WitnessState.articles (nm "y.md")).isSome = true) ∧
    (WellFormedGraph (add_link_between_articles c1WitnessState
        (nm "x.md") (nm "y.md")).articles ∧
     WellFormedGraph (remove_link_between_articles c1WitnessState
        (nm "x.md") (nm "y.md")).1.articles) :=
  ⟨by decide, by decide,
    claim1_symmetry_invariant c1WitnessState (nm "x.md") (nm "y.md")
      (wellFormed_of_entries (by decide) (by decide) (by decide))
      (by decide) (by decide)⟩

/-! ## Claim C9 -/

/-- **C9.** A self-link is permitted: `add_link_between_articles X X` puts `X`
into its own tracked links and its own inbound links (so it is linked); and in
any dictionary with unique keys, an article whose inbound list contains some
name is never classified floating. -/
theorem claim9_self_link (st : ArticleExaminer) (X : Name) (a : Article)
    (hX : lookupArticle st.articles X = some a) (hfresh : X ∉ a.md_links) :
    (∃ a', lookupArticle (add_link_between_articles st X X).articles X = some a' ∧
      X ∈ a'.md_links ∧ X ∈ a'.linked_from ∧ a'.is_not_linked_to = false) ∧
    (∀ (m : Articles) (b : Article), (m.map Prod.fst).Nodup →
      lookupArticle m X = some b → X ∈ b.linked_from → X ∉ floatingOf m) := by
  constructor
  · have hadd : a.add_md_link_to X = ({ a with md_links := a.md_links ++ [X] }, true) := by
      unfold Article.add_md_link_to
      rw [if_neg hfresh]
    set a1 : Article := { a with md_links := a.md_links ++ [X] } with ha1
    have hmem : X ∈ (a1.add_md_link_from X).linked_from := by
      unfold Article.add_md_link_from
      split
      · assumption
      · simp
    have hmd : (a1.add_md_link_from X).md_links = a1.md_links := by
      unfold Article.add_md_link_from
      split <;> rfl
    refine ⟨a1.add_md_link_from X, ?_, ?_, hmem, ?_⟩
    · simp only [add_link_between_articles, hX, Option.isNone_some, Bool.false_eq_true,
        if_false, hadd, if_true, lookup_set_self]
    · rw [hmd, ha1]
      simp
    · unfold Article.is_not_linked_to
      exact length_beq_zero_false hmem
  · intro m b hnd hb hbl hmem
    unfold floatingOf at hmem
    obtain ⟨p, hp, hp1⟩ := List.mem_map.mp hmem
    have hpm := List.mem_filter.mp hp
    have hb2 : lookupArticle m X = some p.2 := by
      refine lookup_of_mem_nodup hnd ?_
      have : p = (X, p.2) := by
        cases p
        simp only at hp1
        rw [hp1]
      rw [← this]
      exact hpm.1
    rw [hb] at hb2
    have hbp : b = p.2 := Option.some_inj.mp hb2
    have := hpm.2
    unfold Article.is_not_linked_to at this
    rw [← hbp] at this
    simp only [beq_iff_eq, List.length_eq_zero] at this
    rw [this] at hbl
    cases hbl

/-- Witness for C9: adding a self-link on a lone existing article records it
on both endpoints of the same article. -/
theorem claim9_witness :
    ∃ a', lookupArticle (add_link_between_articles
      { emptyExaminer with articles := [(nm "a.md", Article.init (nm "a.md") true)] }
      (nm "a.md") (nm "a.md")).articles (nm "a.md") = some a' ∧
      nm "a.md" ∈ a'.md_links ∧ nm "a.md" ∈ a'.linked_from ∧
      a'.is_not_linked_to = false := by
  exact (claim9_self_link
    { emptyExaminer with articles := [(nm "a.md", Article.init (nm "a.md") true)] }
    (nm "a.md") (Article.init (nm "a.md") true) (by decide) (by decide)).1

/-! ## Claim C5: frame machinery -/

/-- The fields of a skipped document that `check_articles` must not touch
(the inbound list is deliberately absent: other re-parsed documents mutate
it), plus preservation of the existence flag. -/
def FrameEq (a a' : Article) : Prop :=
  a'.name = a.name ∧ a'.all_links = a.all_links ∧ a'.md_links = a.md_links ∧
  a'.last_modified = a.last_modified ∧ a'.has_existing_file = true

/-- The article stored at `n` is a frame-equal descendant of `a`. -/
def FrameP (a : Article) (n : Name) (s : ArticleExaminer) : Prop :=
  ∃ a', lookupArticle s.articles n = some a' ∧ FrameEq a a'

theorem frameEq_trans {a a' a'' : Article} (h1 : FrameEq a a') (h2 : FrameEq a' a'') :
    FrameEq a a'' :=
  ⟨h2.1.trans h1.1, h2.2.1.trans h1.2.1, h2.2.2.1.trans h1.2.2.1,
   h2.2.2.2.1.trans h1.2.2.2.1, h2.2.2.2.2⟩

theorem remove_md_link_from_false_of_exists (a : Article) (g : Name)
    (h : a.has_existing_file = true) : (a.remove_md_link_from g).2 = false := by
  unfold Article.remove_md_link_from Article.is_not_written
  split
  · simp [h]
  · rfl

theorem record_link_lookup_ne (g n : Name) (s : ArticleExaminer) (m : List Char)
    (hgn : g ≠ n) :
    lookupArticle (record_link g s m).articles n = lookupArticle s.articles n := by
  unfold record_link
  cases h : lookupArticle s.articles g with
  | none => rfl
  | some a =>
      show lookupArticle (setArticle s.articles g _) n = _
      rw [lookup_set_ne _ _ _ _ (fun e => hgn e.symm)]

theorem fold_record_link_lookup_ne (g n : Name) (hgn : g ≠ n) :
    ∀ (l : List (List Char)) (s : ArticleExaminer),
      lookupArticle ((l.foldl (record_link g) s)).articles n =
        lookupArticle s.articles n := by
  intro l
  induction l with
  | nil => intro s; rfl
  | cons m rest ih =>
      intro s
      rw [List.foldl_cons, ih, record_link_lookup_ne g n s m hgn]

theorem get_links_lookup_ne (s : ArticleExaminer) (line : List Char) (g n : Name)
    (hgn : g ≠ n) :
    lookupArticle (get_all_links_in_text s line g).articles n =
      lookupArticle s.articles n := by
  show lookupArticle
      (if (toggle_code_block s line).inside_of_code_block = true then toggle_code_block s line
       else (findLinkMatches line).foldl (record_link g) (toggle_code_block s line)).articles n =
    lookupArticle s.articles n
  split
  · rw [toggle_articles]
  · rw [fold_record_link_lookup_ne g n hgn, toggle_articles]

theorem add_eq_nosrc (st : ArticleExaminer) (g dn : Name) (d0 : Article)
    (hd0 : lookupArticle st.articles dn = some d0)
    (hg : lookupArticle st.articles g = none) :
    add_link_between_articles st g dn = st := by
  unfold add_link_between_articles
  simp [hd0, hg]

theorem remove_link_eq_nosrc (st : ArticleExaminer) (g dn : Name)
    (hg : lookupArticle st.articles g = none) :
    remove_link_between_articles st g dn =
      (match lookupArticle st.articles dn with
       | none =>
          ({ st with log_archive := st.log_archive ++ [LogEntry.mdLinkRemoved g dn] }, none)
       | some dst =>
          if (dst.remove_md_link_from g).2 then
            ({ st with
               articles := delArticle st.articles dn
               log_archive := (st.log_archive ++ [LogEntry.mdLinkRemoved g dn]) ++
                 [LogEntry.articleRemoved dn] }, some dn)
          else
            ({ st with
               articles := setArticle st.articles dn (dst.remove_md_link_from g).1
               log_archive := st.log_archive ++ [LogEntry.mdLinkRemoved g dn] }, none)) := by
  unfold remove_link_between_articles
  rw [hg]

theorem add_md_link_from_frameEq (a : Article) (g : Name)
    (hex : a.has_existing_file = true) : FrameEq a (a.add_md_link_from g) := by
  refine ⟨add_md_link_from_name a g, ?_, add_md_link_from_md a g, ?_, ?_⟩
  · unfold Article.add_md_link_from
    split <;> rfl
  · unfold Article.add_md_link_from
    split <;> rfl
  · rw [add_md_link_from_exists a g]
    exact hex

theorem remove_md_link_from_frameEq (a : Article) (g : Name)
    (hex : a.has_existing_file = true) : FrameEq a ((a.remove_md_link_from g).1) := by
  refine ⟨remove_md_link_from_name a g, ?_, remove_md_link_from_md a g, ?_, ?_⟩
  · unfold Article.remove_md_link_from
    split <;> rfl
  · unfold Article.remove_md_link_from
    split <;> rfl
  · rw [remove_md_link_from_exists a g]
    exact hex

theorem add_frameP_present (st1 : ArticleExaminer) (g dn n : Name) (d0 : Article)
    (hd0 : lookupArticle st1.articles dn = some d0) (hgn : g ≠ n) (a : Article)
    (hP : FrameP a n st1) : FrameP a n (add_link_between_articles st1 g dn) := by
  obtain ⟨b, hb, hF⟩ := hP
  cases hg0 : lookupArticle st1.articles g with
  | none =>
      rw [add_eq_nosrc st1 g dn d0 hd0 hg0]
      exact ⟨b, hb, hF⟩
  | some src =>
      by_cases hfresh : dn ∈ src.md_links
      · rw [add_eq_stale st1 g dn src d0 hd0 hg0 hfresh]
        exact ⟨b, hb, hF⟩
      · by_cases hgd : g = dn
        · subst hgd
          have harts := add_eq_self st1 g src hg0 hfresh
          refine ⟨b, ?_, hF⟩
          rw [harts, lookup_set_ne _ _ _ _ (fun e => hgn e.symm),
            lookup_set_ne _ _ _ _ (fun e => hgn e.symm)]
          exact hb
        · have harts := add_eq_ne st1 g dn src d0 hd0 hg0 hfresh hgd
          by_cases hdn : dn = n
          · subst hdn
            have hda' : d0 = b := by
              rw [hb] at hd0
              exact (Option.some_inj.mp hd0).symm
            refine ⟨d0.add_md_link_from g, ?_, ?_⟩
            · rw [harts]
              exact lookup_set_self _ dn _
            · rw [hda']
              exact frameEq_trans hF (add_md_link_from_frameEq b g hF.2.2.2.2)
          · refine ⟨b, ?_, hF⟩
            rw [harts, lookup_set_ne _ _ _ _ (fun e => hdn e.symm),
              lookup_set_ne _ _ _ _ (fun e => hgn e.symm)]
            exact hb

theorem add_link_frameP (st : ArticleExaminer) (g dn n : Name) (a : Article)
    (hgn : g ≠ n) (hP : FrameP a n st) :
    FrameP a n (add_link_between_articles st g dn) := by
  obtain ⟨a', ha', hF⟩ := hP
  cases hdd0 : lookupArticle st.articles dn with
  | none =>
      have hdn : dn ≠ n := by
        intro e
        rw [e, ha'] at hdd0
        cases hdd0
      rw [add_eq_creation st g dn hdd0]
      set st1 : ArticleExaminer :=
        { st with articles := setArticle st.articles dn (Article.init dn false)
                  log_archive := st.log_archive ++ [LogEntry.articleAdded dn] } with hst1
      have ha1 : lookupArticle st1.articles n = some a' := by
        rw [hst1]
        show lookupArticle (setArticle st.articles dn (Article.init dn false)) n = _
        rw [lookup_set_ne _ _ _ _ (fun e => hdn e.symm)]
        exact ha'
      have hd1 : lookupArticle st1.articles dn = some (Article.init dn false) := by
        rw [hst1]
        exact lookup_set_self st.articles dn (Article.init dn false)
      exact add_frameP_present st1 g dn n (Article.init dn false) hd1 hgn a ⟨a', ha1, hF⟩
  | some d0 => exact add_frameP_present st g dn n d0 hdd0 hgn a ⟨a', ha', hF⟩

theorem remove_link_frameP (st : ArticleExaminer) (g dn n : Name) (a : Article)
    (hgn : g ≠ n) (hP : FrameP a n st) :
    FrameP a n (remove_link_between_articles st g dn).1 := by
  obtain ⟨a', ha', hF⟩ := hP
  cases hg0 : lookupArticle st.articles g with
  | none =>
      rw [remove_link_eq_nosrc st g dn hg0]
      cases hdd : lookupArticle st.articles dn with
      | none => exact ⟨a', ha', hF⟩
      | some dst =>
          simp only [hdd]
          by_cases hrm : (dst.remove_md_link_from g).2 = true
          · rw [if_pos hrm]
            have hdn : dn ≠ n := by
              intro e
              subst e
              rw [ha'] at hdd
              have hde : dst = a' := (Option.some_inj.mp hdd).symm
              rw [remove_md_link_from_false_of_exists dst g
                (hde ▸ hF.2.2.2.2)] at hrm
              cases hrm
            refine ⟨a', ?_, hF⟩
            show lookupArticle (delArticle st.articles dn) n = some a'
            rw [lookup_del_ne _ _ _ (fun e => hdn e.symm)]
            exact ha'
          · rw [if_neg hrm]
            by_cases hdn : dn = n
            · subst hdn
              have hde : dst = a' := by
                rw [ha'] at hdd
                exact (Option.some_inj.mp hdd).symm
              refine ⟨(dst.remove_md_link_from g).1, lookup_set_self _ dn _, ?_⟩
              rw [hde]
              exact frameEq_trans hF (remove_md_link_from_frameEq a' g hF.2.2.2.2)
            · refine ⟨a', ?_, hF⟩
              show lookupArticle (setArticle st.articles dn _) n = some a'
              rw [lookup_set_ne _ _ _ _ (fun e => hdn e.symm)]
              exact ha'
  | some src =>
      rw [remove_link_eq st g dn src hg0]
      have ha1 : lookupArticle (setArticle st.articles g (src.remove_md_link_to dn)) n
          = some a' := by
        rw [lookup_set_ne _ _ _ _ (fun e => hgn e.symm)]
        exact ha'
      cases hdd : lookupArticle (setArticle st.articles g (src.remove_md_link_to dn)) dn with
      | none =>
          simp only [hdd]
          exact ⟨a', ha1, hF⟩
      | some dst =>
          simp only [hdd]
          by_cases hrm : (dst.remove_md_link_from g).2 = true
          · rw [if_pos hrm]
            have hdn : dn ≠ n := by
              intro e
              subst e
              rw [ha1] at hdd
              have hde : dst = a' := (Option.some_inj.mp hdd).symm
              rw [remove_md_link_from_false_of_exists dst g
                (hde ▸ hF.2.2.2.2)] at hrm
              cases hrm
            refine ⟨a', ?_, hF⟩
            show lookupArticle (delArticle _ dn) n = some a'
            rw [lookup_del_ne _ _ _ (fun e => hdn e.symm)]
            exact ha1
          · rw [if_neg hrm]
            by_cases hdn : dn = n
            · subst hdn
              have hde : dst = a' := by
                rw [ha1] at hdd
                exact (Option.some_inj.mp hdd).symm
              refine ⟨(dst.remove_md_link_from g).1, lookup_set_self _ dn _, ?_⟩
              rw [hde]
              exact frameEq_trans hF (remove_md_link_from_frameEq a' g hF.2.2.2.2)
            · refine ⟨a', ?_, hF⟩
              show lookupArticle (setArticle _ dn _) n = some a'
              rw [lookup_set_ne _ _ _ _ (fun e => hdn e.symm)]
              exact ha1

/-- A markdown file whose stored timestamp is at least the on-disk timestamp
and whose article exists is skipped entirely: `check_article_file` is the
identity on the state. -/
theorem check_article_skip (st : ArticleExaminer) (f : MdFile) (a : Article)
    (ha : lookupArticle st.articles f.name = some a)
    (hex : a.has_existing_file = true) (hlm : f.mtime ≤ a.last_modified) :
    check_article_file st f = st := by
  unfold check_article_file
  have hw : a.is_not_written = false := by
    unfold Article.is_not_written
    rw [hex]
    rfl
  simp only [ha, hw, Bool.false_eq_true, if_false]
  rw [if_neg (by omega : ¬(a.last_modified < f.mtime))]

/-- The re-parse of a different file preserves the frame of `n`'s article. -/
theorem reparse_frameP (st : ArticleExaminer) (f : MdFile) (article : Article)
    (n : Name) (a : Article) (hn : f.name ≠ n) (hP : FrameP a n st) :
    FrameP a n (reparse_article st f article) := by
  unfold reparse_article
  set st2 : ArticleExaminer := { st with articles := setArticle st.articles f.name { article with all_links := [], md_links := [] } } with hst2
  set st3 : ArticleExaminer :=
    f.lines.foldl (fun s line => get_all_links_in_text s line f.name) st2 with hst3
  set newAll : List Name :=
    (match lookupArticle st3.articles f.name with
     | some a => a.all_links
     | none => []) with hnewAll
  set st4 : ArticleExaminer := newAll.foldl (fun s link =>
      if check_text_is_local_md_file_name link then
        add_link_between_articles s f.name link
      else s) st3 with hst4
  set st5 : ArticleExaminer :=
    (match lookupArticle st4.articles f.name with
     | some a =>
        { st4 with articles :=
            setArticle st4.articles f.name { a with last_modified := f.mtime } }
     | none => st4) with hst5
  set st6 : ArticleExaminer := article.md_links.foldl (fun s link =>
      let cur_md :=
        match lookupArticle s.articles f.name with
        | some a => a.md_links
        | none => []
      if link ∈ cur_md then s
      else (remove_link_between_articles s f.name link).1) st5 with hst6
  show FrameP a n (article.all_links.foldl (fun s link =>
      let cur_all :=
        match lookupArticle s.articles f.name with
        | some a => a.all_links
        | none => []
      if link ∈ cur_all then s
      else
        match lookupArticle s.articles f.name with
        | some a =>
            { s with
              articles := setArticle s.articles f.name (a.remove_link link).1
              log_archive := s.log_archive ++ [LogEntry.linkRemoved f.name link] }
        | none => s) st6)
  have hP2 : FrameP a n st2 := by
    obtain ⟨a', ha', hF⟩ := hP
    refine ⟨a', ?_, hF⟩
    rw [hst2]
    show lookupArticle (setArticle st.articles f.name _) n = some a'
    rw [lookup_set_ne _ _ _ _ (fun e => hn e.symm)]
    exact ha'
  have hP3 : FrameP a n st3 := by
    rw [hst3]
    exact foldl_induction _ (FrameP a n) f.lines st2 hP2
      (fun b line _ hPb => by
        obtain ⟨a', hb, hF⟩ := hPb
        exact ⟨a', by rw [get_links_lookup_ne b line f.name n hn]; exact hb, hF⟩)
  have hP4 : FrameP a n st4 := by
    rw [hst4]
    exact foldl_induction _ (FrameP a n) newAll st3 hP3
      (fun b link _ hPb => by
        split
        · exact add_link_frameP b f.name link n a hn hPb
        · exact hPb)
  have hP5 : FrameP a n st5 := by
    rw [hst5]
    cases h4 : lookupArticle st4.articles f.name with
    | none => exact hP4
    | some aa =>
        obtain ⟨a', hb, hF⟩ := hP4
        refine ⟨a', ?_, hF⟩
        show lookupArticle (setArticle st4.articles f.name _) n = some a'
        rw [lookup_set_ne _ _ _ _ (fun e => hn e.symm)]
        exact hb
  have hP6 : FrameP a n st6 := by
    rw [hst6]
    exact foldl_induction _ (FrameP a n) article.md_links st5 hP5
      (fun b link _ hPb => by
        dsimp only
        split
        · exact hPb
        · exact remove_link_frameP b f.name link n a hn hPb)
  exact foldl_induction _ (FrameP a n) article.all_links st6 hP6
    (fun b link _ hPb => by
      dsimp only
      split
      · exact hPb
      · cases hbb : lookupArticle b.articles f.name with
        | none => simp only [hbb]; exact hPb
        | some aa =>
            simp only [hbb]
            obtain ⟨a', hb, hF⟩ := hPb
            refine ⟨a', ?_, hF⟩
            show lookupArticle (setArticle b.articles f.name _) n = some a'
            rw [lookup_set_ne _ _ _ _ (fun e => hn e.symm)]
            exact hb)

/-- Processing a different markdown file preserves the frame of `n`'s
article. -/
theorem check_article_frameP (st : ArticleExaminer) (f : MdFile) (n : Name)
    (a : Article) (hn : f.name ≠ n) (hP : FrameP a n st) :
    FrameP a n (check_article_file st f) := by
  unfold check_article_file
  cases h0 : lookupArticle st.articles f.name with
  | none => exact hP
  | some article =>
      simp only [h0]
      have hP1 : FrameP a n (if article.is_not_written = true then
          { st with articles :=
              setArticle st.articles f.name { article with has_existing_file := true } }
          else st) := by
        split
        · obtain ⟨a', ha', hF⟩ := hP
          refine ⟨a', ?_, hF⟩
          show lookupArticle (setArticle st.articles f.name _) n = some a'
          rw [lookup_set_ne _ _ _ _ (fun e => hn e.symm)]
          exact ha'
        · exact hP
      cases h1 : lookupArticle (if article.is_not_written = true then
          { st with articles :=
              setArticle st.articles f.name { article with has_existing_file := true } }
          else st).articles f.name with
      | none =>
          simp only [h1]
          exact hP1
      | some article2 =>
          simp only [h1]
          split
          · exact reparse_frameP _ f article2 n a hn hP1
          · exact hP1

theorem update_existence_lookup_ne (md : List Name) (s : ArticleExaminer) (k n : Name)
    (h : k ≠ n) :
    lookupArticle (update_existence md s k).articles n = lookupArticle s.articles n := by
  unfold update_existence
  cases hk : lookupArticle s.articles k with
  | none => rfl
  | some b =>
      simp only [hk]
      split
      · split
        · show lookupArticle (setArticle s.articles k _) n = _
          rw [lookup_set_ne _ _ _ _ (fun e => h e.symm)]
        · rfl
      · split
        · show lookupArticle (setArticle s.articles k _) n = _
          rw [lookup_set_ne _ _ _ _ (fun e => h e.symm)]
        · rfl

theorem update_existence_self (md : List Name) (s : ArticleExaminer) (n : Name)
    (a : Article) (ha : lookupArticle s.articles n = some a) (hname : a.name ∈ md) :
    lookupArticle (update_existence md s n).articles n =
      some { a with has_existing_file := true } := by
  unfold update_existence
  simp only [ha]
  rw [if_pos hname]
  by_cases hex : a.has_existing_file = true
  · have hb : (!a.has_existing_file) = false := by rw [hex]; rfl
    rw [hb, if_neg Bool.false_ne_true, ha]
    have he : ({ a with has_existing_file := true } : Article) = a := by
      cases a
      simp only at hex
      rw [hex]
    rw [he]
  · have hex' : a.has_existing_file = false := by
      cases hx : a.has_existing_file
      · rfl
      · exact absurd hx hex
    have hb : (!a.has_existing_file) = true := by rw [hex']; rfl
    rw [hb, if_pos rfl]
    exact lookup_set_self s.articles n _

theorem existence_fold_ne (md : List Name) (ks : List Name) (n : Name) (hk : n ∉ ks) :
    ∀ s, lookupArticle ((ks.foldl (update_existence md) s)).articles n =
      lookupArticle s.articles n := by
  induction ks with
  | nil => intro s; rfl
  | cons k t ih =>
      intro s
      have hkn : k ≠ n := fun e => hk (e ▸ List.mem_cons_self k t)
      have ht : n ∉ t := fun hm => hk (List.mem_cons_of_mem k hm)
      rw [List.foldl_cons, ih ht, update_existence_lookup_ne md s k n hkn]

theorem creation_fold_lookup (mdn : List Name) (n : Name) (a' : Article) :
    ∀ s : ArticleExaminer, lookupArticle s.articles n = some a' →
      lookupArticle ((mdn.foldl (fun (s : ArticleExaminer) (md_file : Name) =>
        if (lookupArticle s.articles md_file).isNone then
          { s with articles := setArticle s.articles md_file (Article.init md_file true) }
        else s) s)).articles n = some a' := by
  induction mdn with
  | nil => intro s h; exact h
  | cons k t ih =>
      intro s h
      rw [List.foldl_cons]
      refine ih _ ?_
      split
      · next hcre =>
          have hkn : k ≠ n := by
            intro e
            rw [e, h] at hcre
            cases hcre
          show lookupArticle (setArticle s.articles k _) n = some a'
          rw [lookup_set_ne _ _ _ _ (fun e => hkn e.symm)]
          exact h
      · exact h

/-- `set_directory_path_core` turns a listed markdown file's article into the
same article with `has_existing_file := true`, leaving its other fields
untouched. -/
theorem set_core_frame (st : ArticleExaminer) (dir : Directory) (n : Name)
    (a : Article) (ha : lookupArticle st.articles n = some a) (hname : a.name = n)
    (hnmd : n ∈ (mdFiles dir).map (fun f => f.name))
    (hkeys : (st.articles.map Prod.fst).Nodup) :
    lookupArticle (set_directory_path_core st dir).articles n =
      some { a with has_existing_file := true } := by
  unfold set_directory_path_core
  have hks : n ∈ st.articles.map Prod.fst :=
    List.mem_map.mpr ⟨(n, a), mem_of_lookup ha, rfl⟩
  obtain ⟨p, q, hpq, hnp⟩ := exists_first_occ n hks
  have hnq : n ∉ q := by
    rw [hpq] at hkeys
    have := (List.nodup_append.mp hkeys).2.1
    exact (List.nodup_cons.mp this).1
  refine creation_fold_lookup _ n _ _ ?_
  rw [hpq, List.foldl_append, List.foldl_cons]
  rw [existence_fold_ne _ q n hnq]
  refine update_existence_self _ _ n a ?_ ?_
  · rw [existence_fold_ne _ p n hnp]
    exact ha
  · rw [hname]
    exact hnmd

/-- Over `check_articles`, a listed file whose on-disk timestamp is not newer
keeps its `all_links`, `md_links` and `last_modified`. -/
theorem check_articles_frame (dir : Directory) (f : MdFile) (hf : f ∈ mdFiles dir)
    (hnodupn : ((mdFiles dir).map (fun g => g.name)).Nodup)
    (st : ArticleExaminer) (a' : Article)
    (ha' : lookupArticle st.articles f.name = some a')
    (hex : a'.has_existing_file = true) (hlm : f.mtime ≤ a'.last_modified) :
    ∃ a'', lookupArticle (check_articles st dir).articles f.name = some a'' ∧
      FrameEq a' a'' := by
  unfold check_articles
  refine foldl_induction check_article_file (FrameP a' f.name) (mdFiles dir) st
    ⟨a', ha', rfl, rfl, rfl, rfl, hex⟩ ?_
  intro b g hg hPb
  by_cases hgn : g.name = f.name
  · have hgf : g = f :=
      List.inj_on_of_nodup_map hnodupn hg hf hgn
    obtain ⟨aX, hbX, hFX⟩ := hPb
    rw [hgf, check_article_skip b f aX hbX hFX.2.2.2.2
      (by rw [hFX.2.2.2.1]; exact hlm)]
    exact ⟨aX, hbX, hFX⟩
  · exact check_article_frameP b g f.name a' hgn hPb

/-- **C5 (amended).** During a reconcile pass, a listed markdown file whose
on-disk timestamp is not strictly greater than the stored `last_modified` of
its article is not re-parsed: its `all_links`, `md_links` and `last_modified`
are unchanged by the pass.  (Its inbound `linked_from` list may still change
when other, re-parsed documents add or remove links to it — see the
counterexample.) -/
theorem claim5_change_detection_frame (st : ArticleExaminer) (dir : Directory)
    (f : MdFile) (a : Article)
    (hf : f ∈ mdFiles dir)
    (hkeys : (st.articles.map Prod.fst).Nodup)
    (hnames : ((mdFiles dir).map (fun g => g.name)).Nodup)
    (ha : lookupArticle st.articles f.name = some a)
    (hname : a.name = f.name)
    (hlm : f.mtime ≤ a.last_modified) :
    ∃ a', lookupArticle (reconcile st dir).articles f.name = some a' ∧
      a'.all_links = a.all_links ∧ a'.md_links = a.md_links ∧
      a'.last_modified = a.last_modified := by
  have hnmd : f.name ∈ (mdFiles dir).map (fun g => g.name) :=
    List.mem_map.mpr ⟨f, hf, rfl⟩
  have hcore : lookupArticle
      (set_directory_path_core { st with inside_of_code_block := false } dir).articles
        f.name = some { a with has_existing_file := true } :=
    set_core_frame { st with inside_of_code_block := false } dir f.name a ha hname
      hnmd hkeys
  obtain ⟨a'', hck, hF⟩ := check_articles_frame dir f hf hnames
    (set_directory_path_core { st with inside_of_code_block := false } dir)
    { a with has_existing_file := true } hcore rfl hlm
  refine ⟨a'', ?_, hF.2.1, hF.2.2.1, hF.2.2.2.1⟩
  show lookupArticle (check_articles
    (set_directory_path_core { st with inside_of_code_block := false } dir) dir).articles
      f.name = some a''
  exact hck

/-- The state used by the C5 counterexample and witness: `x.md` already
reconciled (timestamp 1), `y.md` not yet parsed. -/
def c5xArt : Article :=
  { name := nm "x.md", last_modified := 1, has_existing_file := true,
    md_links := [], linked_from := [], all_links := [] }

def c5yArt : Article :=
  { name := nm "y.md", last_modified := 0, has_existing_file := true,
    md_links := [], linked_from := [], all_links := [] }

def c5State : ArticleExaminer :=
  { emptyExaminer with articles := [(nm "x.md", c5xArt), (nm "y.md", c5yArt)] }

def c5Dir : Directory :=
  [⟨nm "x.md", 1, [nm "hello"]⟩, ⟨nm "y.md", 1, [nm "[x](x.md)"]⟩]

/-- Counterexample to C5 as stated: `x.md` is skipped (its timestamp is not
strictly newer), yet its inbound links change during the pass because the
re-parsed `y.md` now links to it. -/
theorem claim5_counterexample :
    (lookupArticle c5State.articles (nm "x.md") = some c5xArt) ∧
    (∀ g ∈ mdFiles c5Dir, g.name = nm "x.md" → g.mtime ≤ c5xArt.last_modified) ∧
    c5xArt.linked_from = [] ∧
    (lookupArticle (reconcile c5State c5Dir).articles (nm "x.md")).map
      Article.linked_from = some [nm "y.md"] := by
  refine ⟨by decide, by decide, by decide, by decide⟩

/-- Witness for C5: the skipped `x.md` keeps its `all_links`, `md_links` and
`last_modified` across the pass. -/
theorem claim5_witness :
    ((⟨nm "x.md", 1, [nm "hello"]⟩ : MdFile) ∈ mdFiles c5Dir) ∧
    (∃ a', lookupArticle (reconcile c5State c5Dir).articles (nm "x.md") = some a' ∧
      a'.all_links = c5xArt.all_links ∧ a'.md_links = c5xArt.md_links ∧
      a'.last_modified = c5xArt.last_modified) := by
  refine ⟨by decide, ?_⟩
  exact claim5_change_detection_frame c5State c5Dir ⟨nm "x.md", 1, [nm "hello"]⟩ c5xArt
    (by decide) (by decide) (by decide) (by decide) (by decide) (by decide)

/-! ## Claim C6

Idempotence of `reconcile`.  The proof goes through a dictionary invariant
established by the first run — keys are unique and name their articles, every
listed markdown file is tracked, and an article's existence flag is set
exactly when its key is listed — plus the fact that after a run every listed
file's stored `last_modified` is at least its on-disk timestamp.  Under these
facts the second run's existence loop, creation loop and per-file check are
all literal no-ops. -/

theorem add_link_name (a : Article) (l : Name) : (a.add_link l).1.name = a.name := by
  unfold Article.add_link
  split <;> rfl

theorem add_link_exists (a : Article) (l : Name) :
    (a.add_link l).1.has_existing_file = a.has_existing_file := by
  unfold Article.add_link
  split <;> rfl

theorem remove_link_name (a : Article) (l : Name) :
    (a.remove_link l).1.name = a.name := by
  unfold Article.remove_link
  split <;> rfl

theorem remove_link_exists (a : Article) (l : Name) :
    (a.remove_link l).1.has_existing_file = a.has_existing_file := by
  unfold Article.remove_link
  split <;> rfl

theorem remove_link_lm (a : Article) (l : Name) :
    (a.remove_link l).1.last_modified = a.last_modified := by
  unfold Article.remove_link
  split <;> rfl

theorem remove_md_link_to_lm (a : Article) (d : Name) :
    (a.remove_md_link_to d).last_modified = a.last_modified := by
  unfold Article.remove_md_link_to
  split <;> rfl

theorem remove_md_link_from_lm (a : Article) (s : Name) :
    (a.remove_md_link_from s).1.last_modified = a.last_modified := by
  unfold Article.remove_md_link_from
  split <;> rfl

theorem keys_map_update (m : Articles) (n : Name) (a : Article) :
    (m.map (fun p => if p.1 == n then (n, a) else p)).map Prod.fst = m.map Prod.fst := by
  induction m with
  | nil => rfl
  | cons p t ih =>
      simp only [List.map_cons, ih]
      by_cases hp : (p.1 == n) = true
      · have hpn : p.1 = n := by simpa using hp
        rw [if_pos hp, hpn]
      · rw [if_neg hp]

theorem keys_set_of_lookup (m : Articles) (k : Name) (b a : Article)
    (h : lookupArticle m k = some b) :
    (setArticle m k a).map Prod.fst = m.map Prod.fst := by
  have hs : (m.find? (fun p => p.1 == k)).isSome = true := by
    unfold lookupArticle at h
    cases hf : m.find? (fun p => p.1 == k) with
    | none => rw [hf] at h; simp at h
    | some q => rfl
  unfold setArticle
  rw [if_pos hs]
  exact keys_map_update m k a

theorem lookup_none_not_key (m : Articles) (n : Name)
    (h : lookupArticle m n = none) : n ∉ m.map Prod.fst := by
  intro hmem
  obtain ⟨p, hp, hfst⟩ := List.mem_map.mp hmem
  unfold lookupArticle at h
  cases hf : m.find? (fun q => q.1 == n) with
  | none =>
      have := List.find?_eq_none.mp hf p hp
      simp [hfst] at this
  | some q => rw [hf] at h; simp at h

theorem nodup_keys_set (m : Articles) (n : Name) (a : Article)
    (h : (m.map Prod.fst).Nodup) : ((setArticle m n a).map Prod.fst).Nodup := by
  unfold setArticle
  by_cases hs : (m.find? (fun p => p.1 == n)).isSome = true
  · rw [if_pos hs, keys_map_update]
    exact h
  · rw [if_neg hs, List.map_append]
    have hnone : lookupArticle m n = none := by
      unfold lookupArticle
      rw [Option.not_isSome_iff_eq_none.mp hs]
      rfl
    refine List.Nodup.append h (by simp) ?_
    intro x hx hxn
    simp only [List.map_cons, List.map_nil, List.mem_singleton] at hxn
    rw [hxn] at hx
    exact lookup_none_not_key m n hnone hx

theorem nodup_keys_del (m : Articles) (n : Name)
    (h : (m.map Prod.fst).Nodup) : ((delArticle m n).map Prod.fst).Nodup := by
  unfold delArticle
  exact h.sublist (List.Sublist.map Prod.fst (List.filter_sublist m))

/-- Keys of the dictionary name the article stored under them; this is how
`ArticleExaminer` always fills `self.articles`. -/
def KeyedNames (m : Articles) : Prop :=
  ∀ n a, lookupArticle m n = some a → a.name = n

/-- The dictionary invariant established by `set_directory_path` and
preserved by `check_articles`: keys name their articles and are unique,
every listed markdown name is tracked, and an article's existence flag is
set exactly when its key is listed. -/
def ScanInv (md : List Name) (m : Articles) : Prop :=
  KeyedNames m ∧ (m.map Prod.fst).Nodup ∧
  (∀ n ∈ md, (lookupArticle m n).isSome = true) ∧
  (∀ n a, lookupArticle m n = some a → (a.has_existing_file = true ↔ n ∈ md))

theorem scanInv_set_common {md : List Name} {m : Articles} (hI : ScanInv md m)
    {k : Name} {b : Article} (b' : Article) (hb : lookupArticle m k = some b)
    (hname : b'.name = b.name) (hex : b'.has_existing_file = b.has_existing_file) :
    ScanInv md (setArticle m k b') := by
  obtain ⟨hK, hN, hP, hE⟩ := hI
  refine ⟨?_, nodup_keys_set m k b' hN, ?_, ?_⟩
  · intro n a ha
    by_cases hnk : n = k
    · subst hnk
      rw [lookup_set_self] at ha
      have hab : a = b' := (Option.some_inj.mp ha).symm
      rw [hab, hname]
      exact hK n b hb
    · rw [lookup_set_ne m k n b' hnk] at ha
      exact hK n a ha
  · intro n hn
    by_cases hnk : n = k
    · subst hnk
      rw [lookup_set_self]
      rfl
    · rw [lookup_set_ne m k n b' hnk]
      exact hP n hn
  · intro n a ha
    by_cases hnk : n = k
    · subst hnk
      rw [lookup_set_self] at ha
      have hab : a = b' := (Option.some_inj.mp ha).symm
      rw [hab, hex]
      exact hE n b hb
    · rw [lookup_set_ne m k n b' hnk] at ha
      exact hE n a ha

theorem scanInv_set_exists_true {md : List Name} {m : Articles} (hI : ScanInv md m)
    {k : Name} {b : Article} (hb : lookupArticle m k = some b) (hk : k ∈ md) :
    ScanInv md (setArticle m k { b with has_existing_file := true }) := by
  obtain ⟨hK, hN, hP, hE⟩ := hI
  refine ⟨?_, nodup_keys_set m k _ hN, ?_, ?_⟩
  · intro n a ha
    by_cases hnk : n = k
    · subst hnk
      rw [lookup_set_self] at ha
      have hab : a = { b with has_existing_file := true } := (Option.some_inj.mp ha).symm
      rw [hab]
      exact hK n b hb
    · rw [lookup_set_ne m k n _ hnk] at ha
      exact hK n a ha
  · intro n hn
    by_cases hnk : n = k
    · subst hnk
      rw [lookup_set_self]
      rfl
    · rw [lookup_set_ne m k n _ hnk]
      exact hP n hn
  · intro n a ha
    by_cases hnk : n = k
    · subst hnk
      rw [lookup_set_self] at ha
      have hab : a = { b with has_existing_file := true } := (Option.some_inj.mp ha).symm
      rw [hab]
      exact ⟨fun _ => hk, fun _ => rfl⟩
    · rw [lookup_set_ne m k n _ hnk] at ha
      exact hE n a ha

theorem scanInv_create {md : List Name} {m : Articles} (hI : ScanInv md m)
    {k : Name} (e : Bool) (hk : lookupArticle m k = none) (hiff : e = true ↔ k ∈ md) :
    ScanInv md (setArticle m k (Article.init k e)) := by
  obtain ⟨hK, hN, hP, hE⟩ := hI
  refine ⟨?_, nodup_keys_set m k _ hN, ?_, ?_⟩
  · intro n a ha
    by_cases hnk : n = k
    · subst hnk
      rw [lookup_set_self] at ha
      have hab : a = Article.init n e := (Option.some_inj.mp ha).symm
      rw [hab]
      rfl
    · rw [lookup_set_ne m k n _ hnk] at ha
      exact hK n a ha
  · intro n hn
    by_cases hnk : n = k
    · subst hnk
      rw [lookup_set_self]
      rfl
    · rw [lookup_set_ne m k n _ hnk]
      exact hP n hn
  · intro n a ha
    by_cases hnk : n = k
    · subst hnk
      rw [lookup_set_self] at ha
      have hab : a = Article.init n e := (Option.some_inj.mp ha).symm
      rw [hab]
      exact hiff
    · rw [lookup_set_ne m k n _ hnk] at ha
      exact hE n a ha

theorem scanInv_del {md : List Name} {m : Articles} (hI : ScanInv md m)
    {k : Name} {dst : Article} (hk : lookupArticle m k = some dst)
    (hex : dst.has_existing_file = false) : ScanInv md (delArticle m k) := by
  obtain ⟨hK, hN, hP, hE⟩ := hI
  have hkmd : k ∉ md := by
    intro hmem
    have := (hE k dst hk).mpr hmem
    rw [hex] at this
    cases this
  refine ⟨?_, nodup_keys_del m k hN, ?_, ?_⟩
  · intro n a ha
    by_cases hnk : n = k
    · subst hnk
      rw [lookup_del_self] at ha
      cases ha
    · rw [lookup_del_ne m k n hnk] at ha
      exact hK n a ha
  · intro n hn
    have hnk : n ≠ k := fun e => hkmd (e ▸ hn)
    rw [lookup_del_ne m k n hnk]
    exact hP n hn
  · intro n a ha
    by_cases hnk : n = k
    · subst hnk
      rw [lookup_del_self] at ha
      cases ha
    · rw [lookup_del_ne m k n hnk] at ha
      exact hE n a ha

theorem scanInv_record_link (md : List Name) (g : Name) (s : ArticleExaminer)
    (m : List Char) (hI : ScanInv md s.articles) :
    ScanInv md (record_link g s m).articles := by
  unfold record_link
  cases h : lookupArticle s.articles g with
  | none => exact hI
  | some a =>
      show ScanInv md (setArticle s.articles g (a.add_link (linkFromMatch m)).1)
      exact scanInv_set_common hI _ h (add_link_name a _) (add_link_exists a _)

theorem scanInv_get_links (md : List Name) (s : ArticleExaminer) (line : List Char)
    (g : Name) (hI : ScanInv md s.articles) :
    ScanInv md (get_all_links_in_text s line g).articles := by
  show ScanInv md (if (toggle_code_block s line).inside_of_code_block = true
      then toggle_code_block s line
      else (findLinkMatches line).foldl (record_link g) (toggle_code_block s line)).articles
  split
  · rw [toggle_articles]
    exact hI
  · refine foldl_induction (record_link g) (fun b => ScanInv md b.articles) _ _ ?_ ?_
    · show ScanInv md (toggle_code_block s line).articles
      rw [toggle_articles]
      exact hI
    · intro b mm _ hb
      exact scanInv_record_link md g b mm hb

theorem scanInv_add_present (md : List Name) (st : ArticleExaminer) (g dn : Name)
    (d0 : Article) (hd0 : lookupArticle st.articles dn = some d0)
    (hI : ScanInv md st.articles) :
    ScanInv md (add_link_between_articles st g dn).articles := by
  cases hg0 : lookupArticle st.articles g with
  | none =>
      rw [add_eq_nosrc st g dn d0 hd0 hg0]
      exact hI
  | some src =>
      by_cases hfresh : dn ∈ src.md_links
      · rw [add_eq_stale st g dn src d0 hd0 hg0 hfresh]
        exact hI
      · by_cases hgd : g = dn
        · subst hgd
          rw [add_eq_self st g src hg0 hfresh]
          exact scanInv_set_common
            (scanInv_set_common hI { src with md_links := src.md_links ++ [g] } hg0 rfl rfl)
            (({ src with md_links := src.md_links ++ [g] } : Article).add_md_link_from g)
            (lookup_set_self st.articles g { src with md_links := src.md_links ++ [g] })
            (add_md_link_from_name _ g) (add_md_link_from_exists _ g)
        · rw [add_eq_ne st g dn src d0 hd0 hg0 hfresh hgd]
          have hd1 : lookupArticle
              (setArticle st.articles g { src with md_links := src.md_links ++ [dn] }) dn =
              some d0 := by
            rw [lookup_set_ne st.articles g dn _ (fun e => hgd e.symm)]
            exact hd0
          exact scanInv_set_common
            (scanInv_set_common hI { src with md_links := src.md_links ++ [dn] } hg0 rfl rfl)
            (d0.add_md_link_from g) hd1 (add_md_link_from_name d0 g)
            (add_md_link_from_exists d0 g)

theorem scanInv_add_link (md : List Name) (st : ArticleExaminer) (g dn : Name)
    (hI : ScanInv md st.articles) :
    ScanInv md (add_link_between_articles st g dn).articles := by
  cases hdd : lookupArticle st.articles dn with
  | some d0 => exact scanInv_add_present md st g dn d0 hdd hI
  | none =>
      rw [add_eq_creation st g dn hdd]
      have hdmd : dn ∉ md := by
        intro hmem
        have := hI.2.2.1 dn hmem
        rw [hdd] at this
        simp at this
      have hI1 : ScanInv md (setArticle st.articles dn (Article.init dn false)) :=
        scanInv_create hI false hdd
          ⟨fun h => (Bool.false_ne_true h).elim, fun h => (hdmd h).elim⟩
      exact scanInv_add_present md
        { st with articles := setArticle st.articles dn (Article.init dn false)
                  log_archive := st.log_archive ++ [LogEntry.articleAdded dn] }
        g dn (Article.init dn false) (lookup_set_self st.articles dn _) hI1

theorem scanInv_remove_link (md : List Name) (st : ArticleExaminer) (g dn : Name)
    (hI : ScanInv md st.articles) :
    ScanInv md (remove_link_between_articles st g dn).1.articles := by
  cases hg0 : lookupArticle st.articles g with
  | none =>
      rw [remove_link_eq_nosrc st g dn hg0]
      cases hdd : lookupArticle st.articles dn with
      | none =>
          simp only [hdd]
          exact hI
      | some dst =>
          simp only [hdd]
          by_cases hrm : (dst.remove_md_link_from g).2 = true
          · rw [if_pos hrm]
            have hex : dst.has_existing_file = false := by
              cases hx : dst.has_existing_file
              · rfl
              · rw [remove_md_link_from_false_of_exists dst g hx] at hrm
                cases hrm
            exact scanInv_del hI hdd hex
          · rw [if_neg hrm]
            exact scanInv_set_common hI _ hdd (remove_md_link_from_name dst g)
              (remove_md_link_from_exists dst g)
  | some src =>
      rw [remove_link_eq st g dn src hg0]
      have hI1 : ScanInv md (setArticle st.articles g (src.remove_md_link_to dn)) :=
        scanInv_set_common hI _ hg0 (remove_md_link_to_name src dn)
          (remove_md_link_to_exists src dn)
      cases hdd : lookupArticle (setArticle st.articles g (src.remove_md_link_to dn)) dn with
      | none =>
          simp only [hdd]
          exact hI1
      | some dst =>
          simp only [hdd]
          by_cases hrm : (dst.remove_md_link_from g).2 = true
          · rw [if_pos hrm]
            have hex : dst.has_existing_file = false := by
              cases hx : dst.has_existing_file
              · rfl
              · rw [remove_md_link_from_false_of_exists dst g hx] at hrm
                cases hrm
            exact scanInv_del hI1 hdd hex
          · rw [if_neg hrm]
            exact scanInv_set_common hI1 _ hdd (remove_md_link_from_name dst g)
              (remove_md_link_from_exists dst g)

/-- The listed file's article is tracked, exists, and is at least as new as
the on-disk timestamp. -/
def GoodF (f : MdFile) (m : Articles) : Prop :=
  ∃ a, lookupArticle m f.name = some a ∧ a.has_existing_file = true ∧
    f.mtime ≤ a.last_modified

theorem goodF_del (m : Articles) (dn : Name) (f : MdFile) (dst : Article)
    (hdst : lookupArticle m dn = some dst)
    (hdex : dst.has_existing_file = false) (hG : GoodF f m) :
    GoodF f (delArticle m dn) := by
  obtain ⟨b, hb, hbex, hblm⟩ := hG
  have hdnf : dn ≠ f.name := by
    intro e
    subst e
    rw [hb] at hdst
    have hbd : b = dst := Option.some_inj.mp hdst
    rw [← hbd] at hdex
    rw [hbex] at hdex
    cases hdex
  refine ⟨b, ?_, hbex, hblm⟩
  rw [lookup_del_ne m dn f.name (fun e => hdnf e.symm)]
  exact hb

theorem goodF_set_rm_from (m : Articles) (g dn : Name) (f : MdFile) (dst : Article)
    (hdst : lookupArticle m dn = some dst) (hG : GoodF f m) :
    GoodF f (setArticle m dn (dst.remove_md_link_from g).1) := by
  obtain ⟨b, hb, hbex, hblm⟩ := hG
  by_cases hdnf : dn = f.name
  · rw [hdnf, hb] at hdst
    have hbd : b = dst := Option.some_inj.mp hdst
    refine ⟨(dst.remove_md_link_from g).1, ?_, ?_, ?_⟩
    · rw [hdnf]
      exact lookup_set_self m f.name _
    · rw [remove_md_link_from_exists dst g, ← hbd]
      exact hbex
    · rw [remove_md_link_from_lm dst g, ← hbd]
      exact hblm
  · refine ⟨b, ?_, hbex, hblm⟩
    rw [lookup_set_ne m dn f.name _ (fun e => hdnf e.symm)]
    exact hb

theorem remove_link_goodF (st : ArticleExaminer) (g dn : Name) (f : MdFile)
    (hG : GoodF f st.articles) :
    GoodF f (remove_link_between_articles st g dn).1.articles := by
  cases hg0 : lookupArticle st.articles g with
  | none =>
      rw [remove_link_eq_nosrc st g dn hg0]
      cases hdd : lookupArticle st.articles dn with
      | none =>
          simp only [hdd]
          exact hG
      | some dst =>
          simp only [hdd]
          by_cases hrm : (dst.remove_md_link_from g).2 = true
          · rw [if_pos hrm]
            have hdex : dst.has_existing_file = false := by
              cases hx : dst.has_existing_file
              · rfl
              · rw [remove_md_link_from_false_of_exists dst g hx] at hrm
                cases hrm
            exact goodF_del st.articles dn f dst hdd hdex hG
          · rw [if_neg hrm]
            exact goodF_set_rm_from st.articles g dn f dst hdd hG
  | some src =>
      rw [remove_link_eq st g dn src hg0]
      have hG1 : GoodF f (setArticle st.articles g (src.remove_md_link_to dn)) := by
        obtain ⟨b, hb, hbex, hblm⟩ := hG
        by_cases hgf : g = f.name
        · rw [hgf, hb] at hg0
          have hbs : b = src := Option.some_inj.mp hg0
          refine ⟨src.remove_md_link_to dn, ?_, ?_, ?_⟩
          · rw [hgf]
            exact lookup_set_self st.articles f.name _
          · rw [remove_md_link_to_exists src dn, ← hbs]
            exact hbex
          · rw [remove_md_link_to_lm src dn, ← hbs]
            exact hblm
        · refine ⟨b, ?_, hbex, hblm⟩
          rw [lookup_set_ne st.articles g f.name _ (fun e => hgf e.symm)]
          exact hb
      cases hdd : lookupArticle (setArticle st.articles g (src.remove_md_link_to dn)) dn with
      | none =>
          simp only [hdd]
          exact hG1
      | some dst =>
          simp only [hdd]
          by_cases hrm : (dst.remove_md_link_from g).2 = true
          · rw [if_pos hrm]
            have hdex : dst.has_existing_file = false := by
              cases hx : dst.has_existing_file
              · rfl
              · rw [remove_md_link_from_false_of_exists dst g hx] at hrm
                cases hrm
            exact goodF_del _ dn f dst hdd hdex hG1
          · rw [if_neg hrm]
            exact goodF_set_rm_from _ g dn f dst hdd hG1

/-- Re-parsing a listed file keeps the scan invariant and leaves the file's
article existing with `last_modified = f.mtime` (so not older than the
on-disk timestamp). -/
theorem reparse_scanInv_goodF (md : List Name) (st : ArticleExaminer) (f : MdFile)
    (article : Article) (hI : ScanInv md st.articles)
    (harticle : lookupArticle st.articles f.name = some article)
    (hfmd : f.name ∈ md) :
    ScanInv md (reparse_article st f article).articles ∧
      GoodF f (reparse_article st f article).articles := by
  unfold reparse_article
  set st2 : ArticleExaminer := { st with articles := setArticle st.articles f.name { article with all_links := [], md_links := [] } } with hst2
  set st3 : ArticleExaminer :=
    f.lines.foldl (fun s line => get_all_links_in_text s line f.name) st2 with hst3
  set newAll : List Name :=
    (match lookupArticle st3.articles f.name with
     | some a => a.all_links
     | none => []) with hnewAll
  set st4 : ArticleExaminer := newAll.foldl (fun s link =>
      if check_text_is_local_md_file_name link then
        add_link_between_articles s f.name link
      else s) st3 with hst4
  set st5 : ArticleExaminer :=
    (match lookupArticle st4.articles f.name with
     | some a =>
        { st4 with articles :=
            setArticle st4.articles f.name { a with last_modified := f.mtime } }
     | none => st4) with hst5
  set st6 : ArticleExaminer := article.md_links.foldl (fun s link =>
      let cur_md :=
        match lookupArticle s.articles f.name with
        | some a => a.md_links
        | none => []
      if link ∈ cur_md then s
      else (remove_link_between_articles s f.name link).1) st5 with hst6
  show ScanInv md (article.all_links.foldl (fun s link =>
      let cur_all :=
        match lookupArticle s.articles f.name with
        | some a => a.all_links
        | none => []
      if link ∈ cur_all then s
      else
        match lookupArticle s.articles f.name with
        | some a =>
            { s with
              articles := setArticle s.articles f.name (a.remove_link link).1
              log_archive := s.log_archive ++ [LogEntry.linkRemoved f.name link] }
        | none => s) st6).articles ∧
    GoodF f (article.all_links.foldl (fun s link =>
      let cur_all :=
        match lookupArticle s.articles f.name with
        | some a => a.all_links
        | none => []
      if link ∈ cur_all then s
      else
        match lookupArticle s.articles f.name with
        | some a =>
            { s with
              articles := setArticle s.articles f.name (a.remove_link link).1
              log_archive := s.log_archive ++ [LogEntry.linkRemoved f.name link] }
        | none => s) st6).articles
  have hI2 : ScanInv md st2.articles := by
    rw [hst2]
    exact scanInv_set_common hI _ harticle rfl rfl
  have hI3 : ScanInv md st3.articles := by
    rw [hst3]
    exact foldl_induction _ (fun b => ScanInv md b.articles) f.lines st2 hI2
      (fun b line _ hb => scanInv_get_links md b line f.name hb)
  have hI4 : ScanInv md st4.articles := by
    rw [hst4]
    refine foldl_induction _ (fun b => ScanInv md b.articles) newAll st3 hI3 ?_
    intro b link _ hb
    show ScanInv md (if check_text_is_local_md_file_name link = true
        then add_link_between_articles b f.name link else b).articles
    split
    · exact scanInv_add_link md b f.name link hb
    · exact hb
  have h45 : ScanInv md st5.articles ∧ GoodF f st5.articles := by
    rw [hst5]
    have hsome := hI4.2.2.1 f.name hfmd
    cases h4 : lookupArticle st4.articles f.name with
    | none =>
        rw [h4] at hsome
        simp at hsome
    | some a4 =>
        constructor
        · exact scanInv_set_common hI4 _ h4 rfl rfl
        · refine ⟨{ a4 with last_modified := f.mtime }, lookup_set_self _ _ _, ?_, ?_⟩
          · show a4.has_existing_file = true
            exact (hI4.2.2.2 f.name a4 h4).mpr hfmd
          · show f.mtime ≤ f.mtime
            exact Nat.le_refl _
  have h6 : ScanInv md st6.articles ∧ GoodF f st6.articles := by
    rw [hst6]
    refine foldl_induction _ (fun b => ScanInv md b.articles ∧ GoodF f b.articles)
      article.md_links st5 h45 ?_
    intro b link _ hb
    dsimp only
    split
    · exact hb
    · exact ⟨scanInv_remove_link md b f.name link hb.1,
        remove_link_goodF b f.name link f hb.2⟩
  refine foldl_induction _ (fun b => ScanInv md b.articles ∧ GoodF f b.articles)
    article.all_links st6 h6 ?_
  intro b link _ hb
  dsimp only
  split
  · exact hb
  · cases hbb : lookupArticle b.articles f.name with
    | none =>
        simp only [hbb]
        exact hb
    | some aa =>
        simp only [hbb]
        obtain ⟨bG, hbG, hbGex, hbGlm⟩ := hb.2
        have haab : aa = bG := by
          rw [hbG] at hbb
          exact (Option.some_inj.mp hbb).symm
        constructor
        · exact scanInv_set_common hb.1 _ hbb (remove_link_name aa link)
            (remove_link_exists aa link)
        · refine ⟨(aa.remove_link link).1, lookup_set_self _ _ _, ?_, ?_⟩
          · rw [remove_link_exists aa link, haab]
            exact hbGex
          · rw [remove_link_lm aa link, haab]
            exact hbGlm

/-- One `check_articles` step on a listed file keeps the scan invariant and
leaves the file's article existing and not older than the on-disk
timestamp. -/
theorem check_article_scanInv_goodF (md : List Name) (st : ArticleExaminer) (f : MdFile)
    (hI : ScanInv md st.articles) (hfmd : f.name ∈ md) :
    ScanInv md (check_article_file st f).articles ∧
      GoodF f (check_article_file st f).articles := by
  have hsome := hI.2.2.1 f.name hfmd
  cases h0 : lookupArticle st.articles f.name with
  | none =>
      rw [h0] at hsome
      simp at hsome
  | some article =>
      have hex : article.has_existing_file = true := (hI.2.2.2 f.name article h0).mpr hfmd
      have hw : article.is_not_written = false := by
        unfold Article.is_not_written
        rw [hex]
        rfl
      unfold check_article_file
      simp only [h0, hw, Bool.false_eq_true, if_false]
      by_cases hlt : article.last_modified < f.mtime
      · rw [if_pos hlt]
        exact reparse_scanInv_goodF md st f article hI h0 hfmd
      · rw [if_neg hlt]
        exact ⟨hI, article, h0, hex, by omega⟩

/-- Over the whole `check_articles` loop the scan invariant is preserved and
every listed file ends existing and not older than its on-disk timestamp. -/
theorem check_fold_aux (md : List Name) :
    ∀ (l : List MdFile), (∀ g ∈ l, g.name ∈ md) →
      ((l.map (fun g => g.name)).Nodup) →
      ∀ st : ArticleExaminer, ScanInv md st.articles →
        ScanInv md (l.foldl check_article_file st).articles ∧
          ∀ f ∈ l, GoodF f (l.foldl check_article_file st).articles := by
  intro l
  induction l with
  | nil =>
      intro _ _ st hI
      exact ⟨hI, fun f hf => absurd hf (List.not_mem_nil f)⟩
  | cons g t ih =>
      intro hsub hnd st hI
      simp only [List.map_cons, List.nodup_cons] at hnd
      have hg := check_article_scanInv_goodF md st g hI (hsub g (List.mem_cons_self g t))
      have ht := ih (fun x hx => hsub x (List.mem_cons_of_mem g hx)) hnd.2
        (check_article_file st g) hg.1
      rw [List.foldl_cons]
      refine ⟨ht.1, ?_⟩
      intro f hf
      rcases List.mem_cons.mp hf with h1 | h1
      · rw [h1]
        obtain ⟨aG, haG, haGex, haGlm⟩ := hg.2
        have hfr : FrameP aG g.name (t.foldl check_article_file (check_article_file st g)) := by
          refine foldl_induction check_article_file (FrameP aG g.name) t _
            ⟨aG, haG, rfl, rfl, rfl, rfl, haGex⟩ ?_
          intro b x hx hPb
          have hxg : x.name ≠ g.name := by
            intro e
            exact hnd.1 (e ▸ List.mem_map.mpr ⟨x, hx, rfl⟩)
          exact check_article_frameP b x g.name aG hxg hPb
        obtain ⟨a'', ha'', hF⟩ := hfr
        refine ⟨a'', ha'', hF.2.2.2.2, ?_⟩
        rw [hF.2.2.2.1]
        exact haGlm
      · exact ht.2 f h1

/-- One existence-reconciliation step rewrites the visited article's flag to
the listing membership of its stored name, leaving the rest alone. -/
theorem update_existence_lookup_self (md : List Name) (s : ArticleExaminer) (n : Name)
    (a : Article) (ha : lookupArticle s.articles n = some a) :
    lookupArticle (update_existence md s n).articles n =
      some { a with has_existing_file := decide (a.name ∈ md) } := by
  unfold update_existence
  simp only [ha]
  by_cases hmem : a.name ∈ md
  · rw [if_pos hmem]
    have hd : decide (a.name ∈ md) = true := decide_eq_true hmem
    by_cases hex : a.has_existing_file = true
    · have hb : (!a.has_existing_file) = false := by rw [hex]; rfl
      rw [hb, if_neg Bool.false_ne_true, ha, hd]
      have he : ({ a with has_existing_file := true } : Article) = a := by
        cases a
        simp only at hex
        rw [hex]
      rw [he]
    · have hex' : a.has_existing_file = false := by
        cases hx : a.has_existing_file
        · rfl
        · exact absurd hx hex
      have hb : (!a.has_existing_file) = true := by rw [hex']; rfl
      rw [hb, if_pos rfl, hd]
      exact lookup_set_self s.articles n _
  · rw [if_neg hmem]
    have hd : decide (a.name ∈ md) = false := decide_eq_false hmem
    by_cases hex : a.has_existing_file = true
    · rw [hex, if_pos rfl, hd]
      exact lookup_set_self s.articles n _
    · have hex' : a.has_existing_file = false := by
        cases hx : a.has_existing_file
        · rfl
        · exact absurd hx hex
      rw [hex', if_neg Bool.false_ne_true, ha, hd]
      have he : ({ a with has_existing_file := false } : Article) = a := by
        cases a
        simp only at hex'
        rw [hex']
      rw [he]

theorem update_existence_none (md : List Name) (s : ArticleExaminer) (k n : Name)
    (h : lookupArticle s.articles n = none) :
    lookupArticle (update_existence md s k).articles n = none := by
  by_cases hkn : k = n
  · subst hkn
    unfold update_existence
    simp only [h]
  · rw [update_existence_lookup_ne md s k n hkn]
    exact h

theorem existence_fold_none (md : List Name) :
    ∀ (ks : List Name) (s : ArticleExaminer) (n : Name),
      lookupArticle s.articles n = none →
      lookupArticle ((ks.foldl (update_existence md) s)).articles n = none := by
  intro ks
  induction ks with
  | nil => intro s n h; exact h
  | cons k t ih =>
      intro s n h
      rw [List.foldl_cons]
      exact ih _ n (update_existence_none md s k n h)

/-- The existence-reconciliation loop of `set_directory_path` rewrites every
tracked article's flag to the listing membership of its stored name. -/
theorem existence_fold_self (md : List Name) (st : ArticleExaminer) (n : Name)
    (a : Article) (ha : lookupArticle st.articles n = some a)
    (hkeys : (st.articles.map Prod.fst).Nodup) :
    lookupArticle (((st.articles.map Prod.fst).foldl (update_existence md) st)).articles n =
      some { a with has_existing_file := decide (a.name ∈ md) } := by
  have hks : n ∈ st.articles.map Prod.fst :=
    List.mem_map.mpr ⟨(n, a), mem_of_lookup ha, rfl⟩
  obtain ⟨p, q, hpq, hnp⟩ := exists_first_occ n hks
  have hnq : n ∉ q := by
    rw [hpq] at hkeys
    have := (List.nodup_append.mp hkeys).2.1
    exact (List.nodup_cons.mp this).1
  rw [hpq, List.foldl_append, List.foldl_cons, existence_fold_ne md q n hnq,
    update_existence_lookup_self md _ n a (by rw [existence_fold_ne md p n hnp]; exact ha)]

theorem existence_fold_char (md : List Name) (st : ArticleExaminer)
    (hkeys : (st.articles.map Prod.fst).Nodup) (n : Name) (a' : Article)
    (h : lookupArticle
        (((st.articles.map Prod.fst).foldl (update_existence md) st)).articles n = some a') :
    ∃ a, lookupArticle st.articles n = some a ∧
      a' = { a with has_existing_file := decide (a.name ∈ md) } := by
  cases ha : lookupArticle st.articles n with
  | none =>
      rw [existence_fold_none md _ st n ha] at h
      cases h
  | some a =>
      rw [existence_fold_self md st n a ha hkeys] at h
      exact ⟨a, rfl, (Option.some_inj.mp h).symm⟩

theorem update_existence_keys (md : List Name) (s : ArticleExaminer) (k : Name) :
    (update_existence md s k).articles.map Prod.fst = s.articles.map Prod.fst := by
  unfold update_existence
  cases h : lookupArticle s.articles k with
  | none => rfl
  | some b =>
      simp only [h]
      split
      · split
        · exact keys_set_of_lookup s.articles k b _ h
        · rfl
      · split
        · exact keys_set_of_lookup s.articles k b _ h
        · rfl

theorem existence_fold_keys (md : List Name) :
    ∀ (ks : List Name) (s : ArticleExaminer),
      ((ks.foldl (update_existence md) s)).articles.map Prod.fst =
        s.articles.map Prod.fst := by
  intro ks
  induction ks with
  | nil => intro s; rfl
  | cons k t ih =>
      intro s
      rw [List.foldl_cons, ih, update_existence_keys]

theorem creation_step_isSome (s : ArticleExaminer) (k n : Name)
    (h : (lookupArticle s.articles n).isSome = true) :
    (lookupArticle ((if (lookupArticle s.articles k).isNone then
        { s with articles := setArticle s.articles k (Article.init k true) }
      else s) : ArticleExaminer).articles n).isSome = true := by
  split
  · by_cases hkn : k = n
    · subst hkn
      show (lookupArticle (setArticle s.articles k (Article.init k true)) k).isSome = true
      rw [lookup_set_self]
      rfl
    · show (lookupArticle (setArticle s.articles k (Article.init k true)) n).isSome = true
      rw [lookup_set_ne s.articles k n _ (fun e => hkn e.symm)]
      exact h
  · exact h

theorem creation_fold_isSome (mdn : List Name) :
    ∀ (s : ArticleExaminer) (n : Name), (lookupArticle s.articles n).isSome = true →
      (lookupArticle ((mdn.foldl (fun (s : ArticleExaminer) (md_file : Name) =>
        if (lookupArticle s.articles md_file).isNone then
          { s with articles := setArticle s.articles md_file (Article.init md_file true) }
        else s) s)).articles n).isSome = true := by
  induction mdn with
  | nil => intro s n h; exact h
  | cons k t ih =>
      intro s n h
      rw [List.foldl_cons]
      exact ih _ n (creation_step_isSome s k n h)

/-- After the creation loop of `set_directory_path`, every listed markdown
name is tracked. -/
theorem creation_fold_mp (mdn : List Name) :
    ∀ (s : ArticleExaminer), ∀ n ∈ mdn,
      (lookupArticle ((mdn.foldl (fun (s : ArticleExaminer) (md_file : Name) =>
        if (lookupArticle s.articles md_file).isNone then
          { s with articles := setArticle s.articles md_file (Article.init md_file true) }
        else s) s)).articles n).isSome = true := by
  induction mdn with
  | nil => intro s n hn; cases hn
  | cons k t ih =>
      intro s n hn
      rw [List.foldl_cons]
      rcases List.mem_cons.mp hn with h1 | h1
      · rw [h1]
        refine creation_fold_isSome t _ k ?_
        show (lookupArticle ((if (lookupArticle s.articles k).isNone then
            { s with articles := setArticle s.articles k (Article.init k true) }
          else s) : ArticleExaminer).articles k).isSome = true
        split
        · show (lookupArticle (setArticle s.articles k (Article.init k true)) k).isSome = true
          rw [lookup_set_self]
          rfl
        · next hcre =>
            cases ho : lookupArticle s.articles k with
            | none => rw [ho] at hcre; exact absurd rfl hcre
            | some b => rfl
      · exact ih _ n h1

/-- Every article present after the creation loop either was present before
it, or is a fresh existing placeholder for a listed name. -/
theorem creation_fold_back (mdn : List Name) (n : Name) :
    ∀ (s : ArticleExaminer) (a' : Article),
      lookupArticle ((mdn.foldl (fun (s : ArticleExaminer) (md_file : Name) =>
        if (lookupArticle s.articles md_file).isNone then
          { s with articles := setArticle s.articles md_file (Article.init md_file true) }
        else s) s)).articles n = some a' →
      lookupArticle s.articles n = some a' ∨ (a' = Article.init n true ∧ n ∈ mdn) := by
  induction mdn with
  | nil => intro s a' h; exact Or.inl h
  | cons k t ih =>
      intro s a' h
      rw [List.foldl_cons] at h
      rcases ih _ a' h with h1 | h1
      · by_cases hcre : (lookupArticle s.articles k).isNone = true
        · rw [if_pos hcre] at h1
          have h2 : lookupArticle (setArticle s.articles k (Article.init k true)) n =
              some a' := h1
          by_cases hkn : k = n
          · subst hkn
            rw [lookup_set_self] at h2
            exact Or.inr ⟨(Option.some_inj.mp h2).symm, List.mem_cons_self _ _⟩
          · rw [lookup_set_ne s.articles k n _ (fun e => hkn e.symm)] at h2
            exact Or.inl h2
        · rw [if_neg hcre] at h1
          exact Or.inl h1
      · exact Or.inr ⟨h1.1, List.mem_cons_of_mem k h1.2⟩

/-- `set_directory_path` establishes the scan invariant, given only that the
incoming dictionary is a well-formed Python dict image (unique keys, each
naming its article). -/
theorem set_core_scanInv (st : ArticleExaminer) (dir : Directory)
    (hK : KeyedNames st.articles) (hN : (st.articles.map Prod.fst).Nodup) :
    ScanInv ((mdFiles dir).map (fun f => f.name))
      (set_directory_path_core st dir).articles := by
  unfold set_directory_path_core
  set md : List Name := (mdFiles dir).map (fun f => f.name) with hmd
  set st1 : ArticleExaminer := { st with md_file_list := md } with hst1
  set stE : ArticleExaminer :=
    (st1.articles.map Prod.fst).foldl (update_existence md) st1 with hstE
  show ScanInv md ((md.foldl (fun (s : ArticleExaminer) (md_file : Name) =>
      if (lookupArticle s.articles md_file).isNone then
        { s with articles := setArticle s.articles md_file (Article.init md_file true) }
      else s) stE)).articles
  have hchar : ∀ n a', lookupArticle stE.articles n = some a' →
      ∃ a, lookupArticle st.articles n = some a ∧
        a' = { a with has_existing_file := decide (a.name ∈ md) } := by
    intro n a' h
    rw [hstE] at h
    exact existence_fold_char md st1 hN n a' h
  have hKE : KeyedNames stE.articles := by
    intro n a' h
    obtain ⟨a, ha, he⟩ := hchar n a' h
    rw [he]
    show a.name = n
    exact hK n a ha
  have hNE : (stE.articles.map Prod.fst).Nodup := by
    rw [hstE, existence_fold_keys md _ st1]
    exact hN
  have hPE : ∀ n a', lookupArticle stE.articles n = some a' →
      (a'.has_existing_file = true ↔ n ∈ md) := by
    intro n a' h
    obtain ⟨a, ha, he⟩ := hchar n a' h
    rw [he]
    show decide (a.name ∈ md) = true ↔ n ∈ md
    rw [hK n a ha, decide_eq_true_eq]
  refine ⟨?_, ?_, ?_, ?_⟩
  · intro n a' h
    rcases creation_fold_back md n stE a' h with h1 | h1
    · exact hKE n a' h1
    · rw [h1.1]
      rfl
  · refine foldl_induction _ (fun b => (b.articles.map Prod.fst).Nodup) md stE hNE ?_
    intro b k _ hb
    show ((if (lookupArticle b.articles k).isNone then
        { b with articles := setArticle b.articles k (Article.init k true) }
      else b) : ArticleExaminer).articles.map Prod.fst |>.Nodup
    split
    · exact nodup_keys_set b.articles k _ hb
    · exact hb
  · intro n hn
    exact creation_fold_mp md stE n hn
  · intro n a' h
    rcases creation_fold_back md n stE a' h with h1 | h1
    · exact hPE n a' h1
    · rw [h1.1]
      exact ⟨fun _ => h1.2, fun _ => rfl⟩

/-- Under the scan invariant, one existence-reconciliation step is a literal
no-op (the flag already matches the listing). -/
theorem update_existence_fixed (md : List Name) (s : ArticleExaminer) (k : Name)
    (hK : KeyedNames s.articles)
    (hE : ∀ n a, lookupArticle s.articles n = some a →
      (a.has_existing_file = true ↔ n ∈ md)) :
    update_existence md s k = s := by
  unfold update_existence
  cases h : lookupArticle s.articles k with
  | none => rfl
  | some b =>
      simp only [h]
      by_cases hmem : b.name ∈ md
      · rw [if_pos hmem]
        have hex : b.has_existing_file = true :=
          (hE k b h).mpr (by rw [← hK k b h]; exact hmem)
        have hb : (!b.has_existing_file) = false := by rw [hex]; rfl
        rw [hb, if_neg Bool.false_ne_true]
      · rw [if_neg hmem]
        have hex : b.has_existing_file = false := by
          cases hx : b.has_existing_file
          · rfl
          · exact absurd ((hE k b h).mp hx) (by rw [← hK k b h]; exact hmem)
        rw [hex, if_neg Bool.false_ne_true]

theorem existence_fold_id (md : List Name) (ks : List Name) (s : ArticleExaminer)
    (hK : KeyedNames s.articles)
    (hE : ∀ n a, lookupArticle s.articles n = some a →
      (a.has_existing_file = true ↔ n ∈ md)) :
    ks.foldl (update_existence md) s = s :=
  foldl_fixed (update_existence md) ks s (fun k _ => update_existence_fixed md s k hK hE)

theorem creation_fold_id (mdn : List Name) (s : ArticleExaminer)
    (hP : ∀ n ∈ mdn, (lookupArticle s.articles n).isSome = true) :
    mdn.foldl (fun (s : ArticleExaminer) (md_file : Name) =>
      if (lookupArticle s.articles md_file).isNone then
        { s with articles := setArticle s.articles md_file (Article.init md_file true) }
      else s) s = s := by
  refine foldl_fixed _ mdn s ?_
  intro k hk
  have hs := hP k hk
  cases ho : lookupArticle s.articles k with
  | none =>
      rw [ho] at hs
      simp at hs
  | some b => simp [ho]

/-- Under the scan invariant, `set_directory_path` only rewrites the cached
file listing: dictionary, log and classification lists are untouched. -/
theorem set_core_eq_of_scanInv (st : ArticleExaminer) (dir : Directory)
    (hI : ScanInv ((mdFiles dir).map (fun f => f.name)) st.articles) :
    set_directory_path_core st dir =
      { st with md_file_list := (mdFiles dir).map (fun f => f.name) } := by
  show ((mdFiles dir).map (fun f => f.name)).foldl
      (fun (s : ArticleExaminer) (md_file : Name) =>
        if (lookupArticle s.articles md_file).isNone then
          { s with articles := setArticle s.articles md_file (Article.init md_file true) }
        else s)
      ((({ st with md_file_list := (mdFiles dir).map (fun f => f.name) } :
          ArticleExaminer).articles.map Prod.fst).foldl
        (update_existence ((mdFiles dir).map (fun f => f.name)))
        { st with md_file_list := (mdFiles dir).map (fun f => f.name) }) =
    { st with md_file_list := (mdFiles dir).map (fun f => f.name) }
  rw [existence_fold_id ((mdFiles dir).map (fun f => f.name)) _
    { st with md_file_list := (mdFiles dir).map (fun f => f.name) } hI.1 hI.2.2.2]
  exact creation_fold_id ((mdFiles dir).map (fun f => f.name))
    { st with md_file_list := (mdFiles dir).map (fun f => f.name) } hI.2.2.1

/-- When every listed file's article exists and is not older than the on-disk
timestamp, `check_articles` is the identity. -/
theorem check_articles_id (dir : Directory) (st : ArticleExaminer)
    (hG : ∀ f ∈ mdFiles dir, GoodF f st.articles) :
    check_articles st dir = st := by
  unfold check_articles
  refine foldl_fixed check_article_file (mdFiles dir) st ?_
  intro f hf
  obtain ⟨a, ha, hex, hlm⟩ := hG f hf
  exact check_article_skip st f a ha hex hlm

/-- **C6.** Running the full reconcile pass twice in succession over the same
directory listing, with no file content or timestamp changes in between,
yields identical floating and missing lists after the second run and appends
nothing at all to the log during the second run (in particular no link-add or
link-remove entries).  The hypotheses only say that the starting dictionary
is a well-formed Python dict image — unique keys, each naming its article —
and that the directory listing carries no duplicate file names. -/
theorem claim6_reconcile_idempotent (st0 : ArticleExaminer) (dir : Directory)
    (hK : KeyedNames st0.articles)
    (hN : (st0.articles.map Prod.fst).Nodup)
    (hnames : ((mdFiles dir).map (fun f => f.name)).Nodup) :
    (reconcile (reconcile st0 dir) dir).floating_articles =
        (reconcile st0 dir).floating_articles ∧
      (reconcile (reconcile st0 dir) dir).missing_articles =
        (reconcile st0 dir).missing_articles ∧
      (reconcile (reconcile st0 dir) dir).log_archive =
        (reconcile st0 dir).log_archive := by
  have hI0 : ScanInv ((mdFiles dir).map (fun f => f.name))
      (set_directory_path_core { st0 with inside_of_code_block := false } dir).articles :=
    set_core_scanInv { st0 with inside_of_code_block := false } dir hK hN
  have h1 := check_fold_aux ((mdFiles dir).map (fun f => f.name)) (mdFiles dir)
    (fun g hg => List.mem_map.mpr ⟨g, hg, rfl⟩) hnames
    (set_directory_path_core { st0 with inside_of_code_block := false } dir) hI0
  have hIT : ScanInv ((mdFiles dir).map (fun f => f.name))
      (reconcile st0 dir).articles := h1.1
  have hGT : ∀ f ∈ mdFiles dir, GoodF f (reconcile st0 dir).articles := h1.2
  have hseq : set_directory_path_core
      { reconcile st0 dir with inside_of_code_block := false } dir =
      { { reconcile st0 dir with inside_of_code_block := false } with
          md_file_list := (mdFiles dir).map (fun f => f.name) } :=
    set_core_eq_of_scanInv { reconcile st0 dir with inside_of_code_block := false } dir hIT
  have hchk : check_articles
      { { reconcile st0 dir with inside_of_code_block := false } with
          md_file_list := (mdFiles dir).map (fun f => f.name) } dir =
      { { reconcile st0 dir with inside_of_code_block := false } with
          md_file_list := (mdFiles dir).map (fun f => f.name) } :=
    check_articles_id dir _ (fun f hf => hGT f hf)
  set Y : ArticleExaminer :=
    { { reconcile st0 dir with inside_of_code_block := false } with
        md_file_list := (mdFiles dir).map (fun (f : MdFile) => f.name) } with hY
  have h2 : reconcile (reconcile st0 dir) dir = summarize_md_issues_in Y dir := by
    show summarize_md_issues_in
        (set_directory_path_core
          { reconcile st0 dir with inside_of_code_block := false } dir) dir =
      summarize_md_issues_in Y dir
    rw [hseq]
  have h3 : summarize_md_issues_in Y dir =
      { Y with floating_articles := floatingOf Y.articles
               missing_articles := missingOf Y.articles } := by
    show ({ check_articles Y dir with
        floating_articles := floatingOf (check_articles Y dir).articles
        missing_articles := missingOf (check_articles Y dir).articles } :
      ArticleExaminer) =
      { Y with floating_articles := floatingOf Y.articles
               missing_articles := missingOf Y.articles }
    rw [hchk]
  rw [h2, h3]
  exact ⟨rfl, rfl, rfl⟩

/-- Directory for the C6 witness: one markdown file linking a missing one. -/
def c6Dir : Directory :=
  [⟨nm "a.md", 1, [nm "see [b](b.md)"]⟩]

/-- Witness for C6: the fresh examiner satisfies the dictionary hypotheses,
the witness directory has unique names, and the second reconcile over it
changes neither the classification lists nor the log. -/
theorem claim6_witness :
    KeyedNames emptyExaminer.articles ∧
    (emptyExaminer.articles.map Prod.fst).Nodup ∧
    ((mdFiles c6Dir).map (fun f => f.name)).Nodup ∧
    ((reconcile (reconcile emptyExaminer c6Dir) c6Dir).floating_articles =
        (reconcile emptyExaminer c6Dir).floating_articles ∧
      (reconcile (reconcile emptyExaminer c6Dir) c6Dir).missing_articles =
        (reconcile emptyExaminer c6Dir).missing_articles ∧
      (reconcile (reconcile emptyExaminer c6Dir) c6Dir).log_archive =
        (reconcile emptyExaminer c6Dir).log_archive) :=
  ⟨fun n a h => Option.noConfusion h, by decide, by decide,
    claim6_reconcile_idempotent emptyExaminer c6Dir
      (fun n a h => Option.noConfusion h) (by decide) (by decide)⟩

/-! ## Claim C8 -/

/-- **C8.** With caching enabled and a control file present whose contents do
not deserialize, the scan of that directory aborts with the propagated
deserialization error; it never returns a result (so there is no silent
fallback to an empty graph). -/
theorem claim8_snapshot_corruption_fatal :
    (∀ (st : ArticleExaminer) (dir : Directory),
      run_scan st false (some ControlFileData.corrupt) dir =
        Except.error PickleError.corrupt) ∧
    (∀ (st : ArticleExaminer) (dir : Directory) (res : ArticleExaminer),
      run_scan st false (some ControlFileData.corrupt) dir ≠ Except.ok res) := by
  refine ⟨fun st dir => rfl, fun st dir res h => ?_⟩
  have he : run_scan st false (some ControlFileData.corrupt) dir =
      Except.error PickleError.corrupt := rfl
  rw [he] at h
  cases h

end AEP
